import Mathlib

/-! # mylang: tokenizer, recursive-descent parser and evaluator

A shallow embedding of `lexer.cpp`, `mylang.cpp` and `syntax.h`.

* Text (`string_view`) is a `List Char`; the character classes of `<cctype>`
  are those of the "C" locale, so a character outside ASCII is in no class.
* `long` is a 64-bit two's-complement integer: an `Int` reduced by `wrapLong`.
* A loop or a recursion of the code is a function with a `fuel` argument; the
  lemmas `lexer_fuel`, `lexer_exn`, `parse_fuel`, `parse_terminates` and
  `parse_error` show that the fuel given is enough and that more fuel gives
  the same result.
* C++ exceptions are the constructors of `Exn`; a function that may throw
  returns `Except Exn _`.
* The token cursor (`TokenStream`, an iterator pair `pos`/`end`) is the list of
  tokens in the range `[pos, end)`.
-/

namespace MyLang

/-! ## Characters (`<cctype>`, "C" locale) -/

/-- The `isspace` of the C locale: space, `\t`, `\n`, `\v`, `\f`, `\r`. -/
def isspace (c : Char) : Bool :=
  c.toNat == 32 || (9 ≤ c.toNat && c.toNat ≤ 13)

/-- The `isdigit` of the C locale. -/
def isdigit (c : Char) : Bool :=
  48 ≤ c.toNat && c.toNat ≤ 57

/-- The `isalpha` of the C locale. -/
def isalpha (c : Char) : Bool :=
  (65 ≤ c.toNat && c.toNat ≤ 90) || (97 ≤ c.toNat && c.toNat ≤ 122)

/-- The `isalnum` of the C locale. -/
def isalnum (c : Char) : Bool :=
  isalpha c || isdigit c

/-- The `string_view::substr(pos, n)` for `pos ≤ size`. -/
def substr (s : List Char) (pos n : Nat) : List Char :=
  (s.drop pos).take n

/-! ## Tokens (`lexer.cpp` and the declarations it uses) -/

/-- Token kinds, in the order of the name table `tt_str` of `lexer.cpp`. -/
inductive TokType where
  | invalid
  | num
  | id
  | op
  | unknown
  deriving DecidableEq, Repr

/-- Operator identities: the enumeration members named in `lexer.cpp` and
`mylang.cpp`. -/
inductive Op where
  | invalid
  | plus
  | minus
  | times
  | div
  | parenL
  | parenR
  | lt
  | gt
  | le
  | ge
  deriving DecidableEq, Repr

/-- The exceptions of the pipeline. `StdInvalidArgument` and `StdOutOfRange`
are the two exceptions of `std::stol`, `BadVariantAccess` is the exception of
`std::get` on a variant holding another alternative, and `OutOfFuel` exists
only in this model (a bounded loop ran out of steps). -/
inductive Exn where
  | InvalidTokenEx (val : List Char)
  | SyntaxErrorEx
  | DivisionByZeroEx
  | TypeErrorEx
  | StdInvalidArgument
  | StdOutOfRange
  | BadVariantAccess
  | OutOfFuel
  deriving DecidableEq, Repr

/-- Function `get_op_type` of `lexer.cpp`: a switch on the first character. -/
def get_op_type (val : List Char) : Op :=
  match val with
  | [] => Op.invalid
  | c :: _ =>
    if c = '+' then Op.plus
    else if c = '-' then Op.minus
    else if c = '*' then Op.times
    else if c = '/' then Op.div
    else if c = '(' then Op.parenL
    else if c = ')' then Op.parenR
    else Op.invalid

/-- Modelled from the spec: the operator table behind `is_operator`, declared in
a header that is not part of the sources. The spec lists the operator lexemes
as `+ - * / ( ) < > <= >=`. -/
def operators : List (List Char) :=
  [['+'], ['-'], ['*'], ['/'], ['('], [')'], ['<'], ['>'], ['<', '='], ['>', '=']]

/-- Modelled from the spec: `is_operator`, declared in a header that is not part
of the sources. "Equality between an operator and a candidate lexeme is purely
string-based at recognition time." -/
def is_operator (s : List Char) : Bool :=
  decide (s ∈ operators)

/-- A token: kind, text slice and operator identity. -/
structure Tok where
  type : TokType
  value : List Char
  op : Op
  deriving DecidableEq, Repr

/-- Modelled from the spec: the constructor `Tok(type, value)`, declared in a
header that is not part of the sources. A token has a kind, a raw text slice
"and (if kind is operator) which specific operator it is"; the operator
identity of a lexeme is computed by `get_op_type`. -/
def Tok.make (type : TokType) (value : List Char) : Tok :=
  { type := type
    value := value
    op := if type = TokType.op then get_op_type value else Op.invalid }

/-- The default token `Tok()`: the end sentinel returned by an exhausted
cursor. -/
def Tok.default : Tok :=
  Tok.make TokType.invalid []

/-- What `lexer` leaves behind: the tokens appended to `result`, and the
exception it threw, if any. -/
structure LexOut where
  result : List Tok
  exn : Option Exn
  deriving DecidableEq, Repr

/-- The `for` loop of `lexer`, one iteration per unit of fuel, followed by the
flush after the loop. `i`, `tok_start`, `tok_type` and `result` are the local
variables of the C++ function. -/
def lexLoop (in_str : List Char) :
    Nat → Nat → Nat → TokType → List Tok → LexOut
  | fuel, i, tok_start, tok_type, result =>
    if h : i < in_str.length then
      match fuel with
      | 0 => ⟨result, some Exn.OutOfFuel⟩
      | fuel + 1 =>
        let tok_start := if tok_type = TokType.invalid then i else tok_start
        let c := in_str[i]
        let val := substr in_str tok_start (i - tok_start + 1)
        let val_until_prev := substr in_str tok_start (i - tok_start)
        if isspace c || is_operator [c] then
          let result :=
            if tok_type ≠ TokType.invalid then
              result ++ [Tok.make tok_type val_until_prev]
            else result
          let tok_type := TokType.invalid
          if !isspace c then
            if i + 1 < in_str.length && is_operator (substr in_str i 2) then
              lexLoop in_str fuel (i + 1 + 1) tok_start tok_type
                (result ++ [Tok.make TokType.op (substr in_str i 2)])
            else
              lexLoop in_str fuel (i + 1) tok_start tok_type
                (result ++ [Tok.make TokType.op (substr in_str i 1)])
          else
            lexLoop in_str fuel (i + 1) tok_start tok_type result
        else if isalnum c || c = '_' then
          if tok_type = TokType.invalid then
            lexLoop in_str fuel (i + 1) i
              (if isdigit c then TokType.num else TokType.id) result
          else if tok_type = TokType.num then
            if !isdigit c then
              ⟨result, some (Exn.InvalidTokenEx val)⟩
            else
              lexLoop in_str fuel (i + 1) tok_start tok_type result
          else
            lexLoop in_str fuel (i + 1) tok_start tok_type result
        else
          if tok_type ≠ TokType.invalid then
            ⟨result, some (Exn.InvalidTokenEx val)⟩
          else
            lexLoop in_str fuel (i + 1) i TokType.unknown result
    else
      if tok_type ≠ TokType.invalid then
        ⟨result ++ [Tok.make tok_type (substr in_str tok_start (i - tok_start))], none⟩
      else
        ⟨result, none⟩

/-- Function `lexer` of `lexer.cpp`, appending to `result`. Every iteration
advances `i`, so `in_str.length` iterations are enough. -/
def lexerInto (in_str : List Char) (result : List Tok) : LexOut :=
  lexLoop in_str in_str.length 0 0 TokType.invalid result

/-- Function `lexer` of `lexer.cpp` on an empty `result` vector. -/
def lexer (in_str : List Char) : LexOut :=
  lexerInto in_str []


/-! ## Token cursor and parser context (`mylang.cpp`) -/

/-- Class `TokenStream`: the iterator pair `pos`/`end`, held as the tokens of
the range `[pos, end)`. -/
structure TokenStream where
  rest : List Tok
  deriving DecidableEq, Repr

/-- Method `TokenStream::get`. -/
def TokenStream.get (ts : TokenStream) : Tok :=
  match ts.rest with
  | t :: _ => t
  | [] => Tok.default

/-- Method `TokenStream::next`. -/
def TokenStream.next (ts : TokenStream) : TokenStream :=
  match ts.rest with
  | _ :: r => ⟨r⟩
  | [] => ts

/-- Class `Context`. -/
structure Context where
  ts : TokenStream
  deriving DecidableEq, Repr

/-- Method `Context::operator*`. -/
def Context.deref (c : Context) : Tok := c.ts.get

/-- Method `Context::get_op`. -/
def Context.get_op (c : Context) : Op := c.ts.get.op

/-- Method `Context::get_str`. -/
def Context.get_str (c : Context) : List Char := c.ts.get.value

/-- Method `Context::operator++(int)`: the current token and the advanced
context. -/
def Context.postInc (c : Context) : Tok × Context :=
  (c.ts.get, ⟨c.ts.next⟩)

/-- Method `Context::next`. -/
def Context.next (c : Context) : Context := ⟨c.ts.next⟩

/-- Number of tokens left in the range `[pos, end)`. -/
def Context.remaining (c : Context) : Nat := c.ts.rest.length

/-- The cursor at the start of a token vector. -/
def Context.start (tokens : List Tok) : Context := ⟨⟨tokens⟩⟩

/-! ## Machine integers -/

/-- Value of `LONG_MAX` for a 64-bit `long`. -/
def LONG_MAX : Int := 9223372036854775807

/-- Value of `LONG_MIN` for a 64-bit `long`. -/
def LONG_MIN : Int := -9223372036854775808

/-- Reduction of an integer to the 64-bit two's-complement range. -/
def wrapLong (x : Int) : Int :=
  (x + 9223372036854775808) % 18446744073709551616 - 9223372036854775808

/-- Value of a run of decimal digits. -/
def digitsValue (ds : List Char) : Nat :=
  ds.foldl (fun acc c => 10 * acc + (c.toNat - 48)) 0

/-- The `std::stol` of the standard library in base 10: leading whitespace, an
optional sign, then the longest run of digits; `std::invalid_argument` when
there is no digit, `std::out_of_range` when the value does not fit a `long`. -/
def stol (s : List Char) : Except Exn Int :=
  let s1 := s.dropWhile isspace
  let neg := s1.head? = some '-'
  let s2 := if s1.head? = some '-' ∨ s1.head? = some '+' then s1.tail else s1
  let ds := s2.takeWhile isdigit
  if ds = [] then
    .error Exn.StdInvalidArgument
  else
    let v : Int := if neg then -(digitsValue ds : Int) else (digitsValue ds : Int)
    if LONG_MIN ≤ v ∧ v ≤ LONG_MAX then .ok v else .error Exn.StdOutOfRange

/-! ## Syntax tree (`syntax.h`) -/

/-- The node kinds the parser builds: `LiteralInt`, the single-child `Expr01`
and the three multi-operator chains `Expr03`, `Expr04`, `Expr06`
(`elems` is the vector of `(Op, child)` pairs). The other classes of
`syntax.h` are never built by the parse functions of `mylang.cpp`. -/
inductive Construct where
  | LiteralInt (value : Int)
  | Expr01 (elem : Construct)
  | Expr03 (elems : List (Op × Construct))
  | Expr04 (elems : List (Op × Construct))
  | Expr06 (elems : List (Op × Construct))
  deriving Repr

/-- Class `LValue`: a storage cell holding a `long`. -/
structure LValue where
  value : Int
  deriving DecidableEq, Repr

/-- Class `EvalValue`: the variant `nullptr_t | long | LValue *`. -/
inductive EvalValue where
  | null
  | long (val : Int)
  | lvalue (cell : LValue)
  deriving DecidableEq, Repr

/-- Result of a parse function: the node built and the advanced context, or
the exception thrown. -/
abbrev ParseResult := Except Exn (Construct × Context)

/-! ## Recursive-descent parser (`mylang.cpp`) -/

/-- Function `pAcceptLiteralInt`: `some v` stands for `true` with `v` set. -/
def pAcceptLiteralInt (c : Context) : Except Exn (Option Construct × Context) :=
  if c.deref.type = TokType.num then
    match stol c.get_str with
    | .ok n => .ok (some (Construct.LiteralInt n), (c.postInc).2)
    | .error e => .error e
  else
    .ok (none, c)

/-- Function `pAcceptOp`. -/
def pAcceptOp (c : Context) (exp : Op) : Bool × Context :=
  if c.deref.op = exp then
    (true, (c.postInc).2)
  else
    (false, c)

/-- Function `pExpectLiteralInt`. -/
def pExpectLiteralInt (c : Context) : Except Exn (Construct × Context) :=
  match pAcceptLiteralInt c with
  | .ok (some v, c) => .ok (v, c)
  | .ok (none, _) => .error Exn.SyntaxErrorEx
  | .error e => .error e

/-- Function `pExpectOp`. -/
def pExpectOp (c : Context) (exp : Op) : Except Exn Context :=
  if (pAcceptOp c exp).1 then
    .ok (pAcceptOp c exp).2
  else
    .error Exn.SyntaxErrorEx

/-- Function `AcceptOneOf`. -/
def AcceptOneOf (c : Context) : List Op → Op × Context
  | [] => (Op.invalid, c)
  | op :: list =>
    if (pAcceptOp c op).1 then
      (op, (pAcceptOp c op).2)
    else
      AcceptOneOf c list

/-- Function `pExpr01`; `pExprTop` is the top rule it calls back into. -/
def pExpr01 (pExprTop : Context → ParseResult) (c : Context) : ParseResult :=
  match pAcceptLiteralInt c with
  | .error e => .error e
  | .ok (some e, c) => .ok (Construct.Expr01 e, c)
  | .ok (none, c) =>
    if (pAcceptOp c Op.parenL).1 then
      match pExprTop (pAcceptOp c Op.parenL).2 with
      | .error e => .error e
      | .ok (e, c) =>
        match pExpectOp c Op.parenR with
        | .error e => .error e
        | .ok c => .ok (Construct.Expr01 e, c)
    else
      .error Exn.SyntaxErrorEx

/-- The `while` loop of `pExprGeneric`, one iteration per unit of fuel. -/
def pExprGenericLoop (lowerExpr : Context → ParseResult) (ops : List Op) :
    Nat → Context → List (Op × Construct) →
      Except Exn (List (Op × Construct) × Context)
  | fuel, c, elems =>
    if (AcceptOneOf c ops).1 ≠ Op.invalid then
      match fuel with
      | 0 => .error Exn.OutOfFuel
      | fuel + 1 =>
        match lowerExpr (AcceptOneOf c ops).2 with
        | .error e => .error e
        | .ok (e, c1) =>
          pExprGenericLoop lowerExpr ops fuel c1 (elems ++ [((AcceptOneOf c ops).1, e)])
    else
      .ok (elems, (AcceptOneOf c ops).2)

/-- Function template `pExprGeneric<ExprT, allow_op_first>`; `mk` builds the
`ExprT` node from its `elems`. -/
def pExprGeneric (mk : List (Op × Construct) → Construct) (allow_op_first : Bool)
    (lowerExpr : Context → ParseResult) (ops : List Op) (fuel : Nat)
    (c : Context) : ParseResult :=
  let first := if allow_op_first then AcceptOneOf c ops else (Op.invalid, c)
  match lowerExpr first.2 with
  | .error e => .error e
  | .ok (e, c1) =>
    match pExprGenericLoop lowerExpr ops fuel c1 [(first.1, e)] with
    | .error e => .error e
    | .ok (elems, c2) => .ok (mk elems, c2)

/-- Function `pExpr03`. -/
def pExpr03 (pExprTop : Context → ParseResult) (fuel : Nat) (c : Context) :
    ParseResult :=
  pExprGeneric Construct.Expr03 false (pExpr01 pExprTop) [Op.times, Op.div] fuel c

/-- Function `pExpr04`. -/
def pExpr04 (pExprTop : Context → ParseResult) (fuel : Nat) (c : Context) :
    ParseResult :=
  pExprGeneric Construct.Expr04 true (pExpr03 pExprTop fuel) [Op.plus, Op.minus] fuel c

/-- Function `pExpr06`. -/
def pExpr06 (pExprTop : Context → ParseResult) (fuel : Nat) (c : Context) :
    ParseResult :=
  pExprGeneric Construct.Expr06 false (pExpr04 pExprTop fuel)
    [Op.lt, Op.gt, Op.le, Op.ge] fuel c

/-- Function `pExprTop`, the top rule: `fuel` bounds the nesting of
parenthesised groups and the iterations of each chain loop. -/
def pExprTop : Nat → Context → ParseResult
  | 0 => fun _ => .error Exn.OutOfFuel
  | fuel + 1 => fun c => pExpr06 (pExprTop fuel) fuel c

/-- The top rule on a whole token vector. Every nested group and every loop
iteration consumes a token, so `tokens.length + 1` units of fuel are enough. -/
def parse (tokens : List Tok) : ParseResult :=
  pExprTop (tokens.length + 1) (Context.start tokens)

/-! ## Evaluation -/

/-- Method `EvalValue::get<long>` after unwrapping a reference to its stored
integer: `std::get<long>` throws `std::bad_variant_access` on an absent
value. -/
def EvalValue.toLong (v : EvalValue) : Except Exn Int :=
  match v with
  | .long n => .ok n
  | .lvalue cell => .ok cell.value
  | .null => .error Exn.BadVariantAccess

/-- Modelled from the spec: how a Binary-Chain combines the running value with
the next operand (the `eval` bodies of `Expr03`, `Expr04`, `Expr06` are only
declared in `syntax.h`). `+ - * /` produce a machine integer, `< > <= >=`
produce 1 for true and 0 for false, and division by zero fails with the
division-by-zero condition. The spec gives no meaning to any other operator
in a chain; the running value is then kept. -/
def applyOp (op : Op) (acc v : Int) : Except Exn Int :=
  match op with
  | Op.plus => .ok (wrapLong (acc + v))
  | Op.minus => .ok (wrapLong (acc - v))
  | Op.times => .ok (wrapLong (acc * v))
  | Op.div => if v = 0 then .error Exn.DivisionByZeroEx else .ok (wrapLong (Int.tdiv acc v))
  | Op.lt => .ok (if acc < v then 1 else 0)
  | Op.gt => .ok (if acc > v then 1 else 0)
  | Op.le => .ok (if acc ≤ v then 1 else 0)
  | Op.ge => .ok (if acc ≥ v then 1 else 0)
  | _ => .ok acc

mutual
/-- Method `eval` of the node kinds. `LiteralInt::eval` and
`SingleChildConstruct::eval` are those of `syntax.h`; the three chains go
through `evalChain`. -/
def Construct.eval : Construct → Except Exn EvalValue
  | .LiteralInt value => .ok (EvalValue.long value)
  | .Expr01 elem => elem.eval
  | .Expr03 elems => evalChain elems
  | .Expr04 elems => evalChain elems
  | .Expr06 elems => evalChain elems
/-- Modelled from the spec: evaluation of a Binary-Chain (the `eval` bodies of
`Expr03`, `Expr04`, `Expr06` are only declared in `syntax.h`): "evaluate the
first operand (unwrapping a reference to its stored integer if needed) as the
running value", then fold the later pairs. A chain without operands has no
value. -/
def evalChain : List (Op × Construct) → Except Exn EvalValue
  | [] => .ok EvalValue.null
  | (_, e) :: rest =>
    match e.eval with
    | .error x => .error x
    | .ok v =>
      match v.toLong with
      | .error x => .error x
      | .ok acc => evalRest acc rest
/-- Modelled from the spec: "for each subsequent (operator, operand) pair,
evaluate the operand, unwrap to an integer, and combine with the running
value". -/
def evalRest (acc : Int) : List (Op × Construct) → Except Exn EvalValue
  | [] => .ok (EvalValue.long acc)
  | (op, e) :: rest =>
    match e.eval with
    | .error x => .error x
    | .ok v =>
      match v.toLong with
      | .error x => .error x
      | .ok n =>
        match applyOp op acc n with
        | .error x => .error x
        | .ok acc1 => evalRest acc1 rest
end

/-! ## The driver (`main` of `mylang.cpp`) -/

/-- The body of `main` from the call of `pExprTop` on: parse, require the
cursor to stand on the end sentinel, evaluate the root. -/
def runTokens (tokens : List Tok) : Except Exn EvalValue :=
  match parse tokens with
  | .error e => .error e
  | .ok (root, ctx) =>
    if ctx.deref.type ≠ TokType.invalid then
      .error Exn.SyntaxErrorEx
    else
      root.eval

/-- The parse step of `main` alone: the tree `main` goes on to print and
evaluate, or the exception thrown by `pExprTop` or by the end-of-input
check. -/
def parseAll (tokens : List Tok) : Except Exn Construct :=
  match parse tokens with
  | .error e => .error e
  | .ok (root, ctx) =>
    if ctx.deref.type ≠ TokType.invalid then
      .error Exn.SyntaxErrorEx
    else
      .ok root

/-- The pipeline of `main` on one expression given with `-e`: tokenize, then
parse and evaluate. (When the expression yields no token at all, `main` turns
to standard input instead; that path is not part of this function.) -/
def runLine (line : List Char) : Except Exn EvalValue :=
  match (lexer line).exn with
  | some e => .error e
  | none => runTokens (lexer line).result

/-! ## The scan of `lexer` over the remaining characters

The same scan with the slices made explicit: `rest` is the text from index `i`
on and `cur` is the slice `val_until_prev` of the token being accumulated. -/

/-- The loop of `lexer` as a recursion over the remaining characters. -/
def lexRest : List Char → List Char → TokType → List Tok → LexOut
  | [], cur, tok_type, result =>
    if tok_type ≠ TokType.invalid then
      ⟨result ++ [Tok.make tok_type cur], none⟩
    else
      ⟨result, none⟩
  | c :: rest, cur, tok_type, result =>
    if isspace c || is_operator [c] then
      if !isspace c then
        if 0 < rest.length && is_operator (c :: rest.take 1) then
          lexRest rest.tail [] TokType.invalid
            ((if tok_type ≠ TokType.invalid then result ++ [Tok.make tok_type cur]
              else result) ++ [Tok.make TokType.op (c :: rest.take 1)])
        else
          lexRest rest [] TokType.invalid
            ((if tok_type ≠ TokType.invalid then result ++ [Tok.make tok_type cur]
              else result) ++ [Tok.make TokType.op [c]])
      else
        lexRest rest [] TokType.invalid
          (if tok_type ≠ TokType.invalid then result ++ [Tok.make tok_type cur]
           else result)
    else if isalnum c || c = '_' then
      if tok_type = TokType.invalid then
        lexRest rest [c] (if isdigit c then TokType.num else TokType.id) result
      else if tok_type = TokType.num then
        if !isdigit c then
          ⟨result, some (Exn.InvalidTokenEx (cur ++ [c]))⟩
        else
          lexRest rest (cur ++ [c]) tok_type result
      else
        lexRest rest (cur ++ [c]) tok_type result
    else
      if tok_type ≠ TokType.invalid then
        ⟨result, some (Exn.InvalidTokenEx (cur ++ [c]))⟩
      else
        lexRest rest [c] TokType.unknown result
termination_by rest => rest.length
decreasing_by
  all_goals simp_wf
  all_goals omega

/-! ## Predicates used in the statements -/

/-- What every token emitted by the lexer satisfies: its kind is not the
sentinel kind, its text is not empty and holds no whitespace character. -/
def TokOk (t : Tok) : Prop :=
  t.type ≠ TokType.invalid ∧ t.value ≠ [] ∧ ∀ ch ∈ t.value, isspace ch = false

/-- The tokens `used` end with a token that closes an operand: a number or a
closing parenthesis. -/
def EndsOperand (used : List Tok) : Prop :=
  ∃ t, used.getLast? = some t ∧ (t.type = TokType.num ∨ t.op = Op.parenR)

/-- A parse function makes progress: whenever it returns a tree, the tokens
left are a suffix of the tokens it was given, and the tokens it consumed end
with a number or a closing parenthesis. -/
def Progress (p : Context → ParseResult) : Prop :=
  ∀ c r c1, p c = .ok (r, c1) → ∃ used, c.ts.rest = used ++ c1.ts.rest ∧ EndsOperand used

/-- Every integer literal of the token list is accepted by `stol`. -/
def LitsOk (ts : List Tok) : Prop :=
  ∀ t ∈ ts, t.type = TokType.num → ∃ n, stol t.value = .ok n

/-- On a context of fewer than `k` tokens whose literals are accepted by
`stol`, the parse function fails only with `SyntaxErrorEx`. -/
def Adequate (p : Context → ParseResult) (k : Nat) : Prop :=
  ∀ c, c.remaining < k → LitsOk c.ts.rest → ∀ e, p c = .error e → e = Exn.SyntaxErrorEx

/-- The parse function `q` agrees with `p` wherever `p` does not run out of
fuel. -/
def FuelStable (p q : Context → ParseResult) : Prop :=
  ∀ c, p c ≠ .error Exn.OutOfFuel → q c = p c

/-- The lexemes of the binary operators. -/
def binaryLexemes : List (List Char) :=
  [['+'], ['-'], ['*'], ['/'], ['<'], ['>'], ['<', '='], ['>', '=']]

/-- The lexemes of the relational operators. -/
def relationalLexemes : List (List Char) :=
  [['<'], ['>'], ['<', '='], ['>', '=']]

/-- The cursor over the token vector `ts` whose iterator `pos` stands `p`
tokens after `ts.cbegin()`. -/
def TokenStream.atPos (ts : List Tok) (p : Nat) : TokenStream :=
  ⟨ts.drop p⟩

/-- The position of a cursor over `ts`: the distance of `pos` from
`ts.cbegin()`. -/
def TokenStream.position (s : TokenStream) (ts : List Tok) : Nat :=
  ts.length - s.rest.length

/-- Method `LValue::put`: the cell after the call and the exception thrown, if
any. -/
def LValue.put (self : LValue) (v : EvalValue) : LValue × Option Exn :=
  match v with
  | .long n => ({ value := n }, none)
  | _ => (self, some Exn.TypeErrorEx)

/-- Method `LValue::eval`. -/
def LValue.eval (self : LValue) : EvalValue :=
  EvalValue.long self.value

/-- Class `ExprList` of `syntax.h`: a node holding the vector `elems` of its
children. -/
structure ExprList where
  elems : List Construct

/-- Method `ExprList::eval` of `syntax.h`: `return EvalValue();`. -/
def ExprList.eval (_self : ExprList) : Except Exn EvalValue :=
  .ok EvalValue.null

/-- The tree `main` builds for the line `1 / 0`. -/
def divByZeroTree : Construct :=
  Construct.Expr06 [(Op.invalid, Construct.Expr04 [(Op.invalid, Construct.Expr03
    [(Op.invalid, Construct.Expr01 (Construct.LiteralInt 1)),
     (Op.div, Construct.Expr01 (Construct.LiteralInt 0))])])]

/-- The text of an unknown token as the lexer builds it: a first character
that is neither whitespace, nor an operator, nor alphanumeric, nor `_`,
followed by alphanumeric characters and `_` only. -/
def UnknownShape (v : List Char) : Prop :=
  ∃ c tail, v = c :: tail ∧ isspace c = false ∧ is_operator [c] = false ∧
    (isalnum c || decide (c = '_')) = false ∧
    ∀ x ∈ tail, (isalnum x || decide (x = '_')) = true

/-- A token that a parse function can consume: a number, taken by
`pAcceptLiteralInt`, or a token with an operator identity, taken by
`pAcceptOp`. -/
def Accepted (t : Tok) : Prop :=
  t.type = TokType.num ∨ t.op ≠ Op.invalid

/-- The sign that `pExpr04` records in front of its first operand when the
cursor stands on the token `t`. -/
def leadingSign (t : Tok) : Op :=
  if t.op = Op.plus then Op.plus else if t.op = Op.minus then Op.minus else Op.invalid

/-- The operators of a chain are well placed: there is a first pair, its
operator is one of `first`, and the operator of every later pair is one of
`later`. -/
def chainOps (first later : List Op) : List Op → Bool
  | [] => false
  | o :: os => decide (o ∈ first) && os.all (fun x => decide (x ∈ later))

mutual
/-- The shape of a tree: every chain is non-empty, an `Expr03` or `Expr06` chain
starts with `Op.invalid` and goes on with operators of its level, an `Expr04`
chain starts with `Op.invalid`, `+` or `-` and goes on with `+` or `-`. That an
`Expr01` node has exactly one child is part of the type. -/
def Construct.shaped : Construct → Bool
  | .LiteralInt _ => true
  | .Expr01 elem => elem.shaped
  | .Expr03 elems =>
    chainOps [Op.invalid] [Op.times, Op.div] (elems.map Prod.fst) && shapedElems elems
  | .Expr04 elems =>
    chainOps [Op.invalid, Op.plus, Op.minus] [Op.plus, Op.minus] (elems.map Prod.fst)
      && shapedElems elems
  | .Expr06 elems =>
    chainOps [Op.invalid] [Op.lt, Op.gt, Op.le, Op.ge] (elems.map Prod.fst)
      && shapedElems elems
/-- Every operand of the chain has the shape `Construct.shaped`. -/
def shapedElems : List (Op × Construct) → Bool
  | [] => true
  | (_, e) :: rest => e.shaped && shapedElems rest
end

mutual
/-- Depth of a tree: the number of nodes on its longest path from the root to
a literal. -/
def Construct.depth : Construct → Nat
  | .LiteralInt _ => 1
  | .Expr01 elem => 1 + elem.depth
  | .Expr03 elems => 1 + depthElems elems
  | .Expr04 elems => 1 + depthElems elems
  | .Expr06 elems => 1 + depthElems elems
/-- The largest depth among the operands of a chain. -/
def depthElems : List (Op × Construct) → Nat
  | [] => 0
  | (_, e) :: rest => max e.depth (depthElems rest)
end

/-- What a parse function of the ladder returns, `k` levels below the top
rule: the tokens left are a suffix of the tokens given, every token consumed
was accepted as a number or as an operator, the tree has the shape
`Construct.shaped`, and its depth plus `k` is at most four times the number of
tokens consumed, plus one. -/
def Inv (k : Nat) (p : Context → ParseResult) : Prop :=
  ∀ c r c1, p c = .ok (r, c1) →
    ∃ used, c.ts.rest = used ++ c1.ts.rest ∧ (∀ t ∈ used, Accepted t) ∧
      r.shaped = true ∧ r.depth + k ≤ 4 * used.length + 1

/-- On a context of fewer than `k` tokens the parse function does not run out
of fuel. -/
def Terminates (p : Context → ParseResult) (k : Nat) : Prop :=
  ∀ c, c.remaining < k → ∀ e, p c = .error e → e ≠ Exn.OutOfFuel

end MyLang

/-! # Theorems -/

namespace MyLang

theorem substr_zero (s : List Char) (p : Nat) : substr s p 0 = [] := by
  simp [substr]

theorem drop_eq_cons (s : List Char) (i : Nat) (h : i < s.length) :
    s.drop i = s[i] :: s.drop (i + 1) := by
  simp

theorem substr_snoc (s : List Char) (p i : Nat) (hp : p ≤ i) (h : i < s.length) :
    substr s p (i - p + 1) = substr s p (i - p) ++ [s[i]] := by
  unfold substr
  rw [List.take_succ]
  congr 1
  have : (List.drop p s)[i - p]? = some s[i] := by
    rw [List.getElem?_drop]
    have : p + (i - p) = i := by omega
    rw [this]
    exact List.getElem?_eq_getElem h
  rw [this]
  rfl

theorem substr_one (s : List Char) (i : Nat) (h : i < s.length) :
    substr s i 1 = [s[i]] := by
  unfold substr
  rw [drop_eq_cons s i h]
  rfl

theorem substr_two (s : List Char) (i : Nat) (h : i < s.length) :
    substr s i 2 = s[i] :: (s.drop (i + 1)).take 1 := by
  unfold substr
  rw [drop_eq_cons s i h]
  rfl

/-! ### The index scan and the scan over the remaining characters agree -/

theorem lexLoop_eq_lexRest (in_str : List Char) :
    ∀ (fuel i tok_start : Nat) (tok_type : TokType) (result : List Tok) (cur : List Char),
      i ≤ in_str.length → in_str.length - i ≤ fuel →
      (tok_type ≠ TokType.invalid →
        tok_start ≤ i ∧ cur = substr in_str tok_start (i - tok_start)) →
      lexLoop in_str fuel i tok_start tok_type result
        = lexRest (in_str.drop i) cur tok_type result := by
  intro fuel
  induction fuel with
  | zero =>
    intro i ts tt result cur hi hf hc
    have hlen : i = in_str.length := by omega
    subst hlen
    unfold lexLoop
    simp only [lt_irrefl, ↓reduceDIte, List.drop_length]
    unfold lexRest
    by_cases htt : tt = TokType.invalid
    · simp [htt]
    · simp [htt, (hc htt).2]
  | succ fuel ih =>
    intro i ts tt result cur hi hf hc
    by_cases hlt : i < in_str.length
    · rw [drop_eq_cons in_str i hlt]
      unfold lexLoop
      unfold lexRest
      simp only [hlt, ↓reduceDIte]
      have hlen2 : decide (0 < (List.drop (i + 1) in_str).length)
          = decide (i + 1 < in_str.length) := by
        simp [List.length_drop]
      have htail : (List.drop (i + 1) in_str).tail = List.drop (i + 1 + 1) in_str := by
        simp [List.tail_drop]
      rw [substr_two in_str i hlt, substr_one in_str i hlt, hlen2, htail]
      by_cases htt : tt = TokType.invalid
      · subst htt
        simp only [ne_eq, not_true_eq_false, ↓reduceIte, if_true]
        split_ifs
        all_goals first
          | rfl
          | (apply ih <;> first | omega | simp | skip)
        all_goals first
          | (rename_i h; simp at h; omega)
          | exact (substr_one in_str i hlt).symm
      · obtain ⟨hts, hcur⟩ := hc htt
        subst hcur
        simp only [ne_eq, htt, not_false_eq_true, ↓reduceIte, if_true, if_false]
        rw [substr_snoc in_str ts i hts hlt]
        split_ifs
        all_goals first
          | rfl
          | (apply ih <;> first | omega | simp | skip)
        all_goals first
          | (rename_i h; simp at h; omega)
          | (intro _; refine ⟨by omega, ?_⟩
             have e : i + 1 - ts = i - ts + 1 := by omega
             rw [e, substr_snoc in_str ts i hts hlt])
    · have hlen : i = in_str.length := by omega
      subst hlen
      unfold lexLoop
      simp only [lt_irrefl, ↓reduceDIte, List.drop_length]
      unfold lexRest
      by_cases htt : tt = TokType.invalid
      · simp [htt]
      · simp [htt, (hc htt).2]

theorem lexer_eq_lexRest (in_str : List Char) :
    lexer in_str = lexRest in_str [] TokType.invalid [] := by
  unfold lexer lexerInto
  rw [lexLoop_eq_lexRest in_str in_str.length 0 0 TokType.invalid [] []
    (Nat.zero_le _) (by omega) (by simp)]
  rfl

/-! ### Character classes -/

theorem is_operator_single (c : Char) :
    is_operator [c] = true ↔
      c = '+' ∨ c = '-' ∨ c = '*' ∨ c = '/' ∨ c = '(' ∨ c = ')' ∨ c = '<' ∨ c = '>' := by
  simp [is_operator, operators]

theorem is_operator_pair (c d : Char) :
    is_operator [c, d] = true ↔ (c = '<' ∨ c = '>') ∧ d = '=' := by
  simp [is_operator, operators]
  tauto

theorem isdigit_not_space {c : Char} (h : isdigit c = true) : isspace c = false := by
  simp only [isdigit, Bool.and_eq_true, decide_eq_true_eq] at h
  simp only [isspace, Bool.or_eq_false_iff, beq_eq_false_iff_ne, Bool.and_eq_false_iff,
    decide_eq_false_iff_not]
  omega

theorem isdigit_not_operator {c : Char} (h : isdigit c = true) : is_operator [c] = false := by
  rw [Bool.eq_false_iff]
  intro ho
  rw [is_operator_single] at ho
  rcases ho with rfl | rfl | rfl | rfl | rfl | rfl | rfl | rfl <;> simp [isdigit] at h

theorem isdigit_isalnum {c : Char} (h : isdigit c = true) : isalnum c = true := by
  simp [isalnum, h]

theorem isdigit_not_pair (c d : Char) (h : isdigit d = true) : is_operator [c, d] = false := by
  rw [Bool.eq_false_iff]
  intro ho
  rw [is_operator_pair] at ho
  obtain ⟨_, rfl⟩ := ho
  simp [isdigit] at h

/-! ### Steps of the scan -/

theorem lexRest_nil (cur : List Char) (tt : TokType) (result : List Tok) :
    lexRest [] cur tt result =
      if tt ≠ TokType.invalid then ⟨result ++ [Tok.make tt cur], none⟩ else ⟨result, none⟩ := by
  unfold lexRest
  rfl

theorem lexRest_digit_open (d : Char) (rest cur : List Char) (result : List Tok)
    (h : isdigit d = true) :
    lexRest (d :: rest) cur TokType.invalid result = lexRest rest [d] TokType.num result := by
  rw [lexRest]
  simp [isdigit_not_space h, isdigit_not_operator h, isdigit_isalnum h, h]

theorem lexRest_digit_cont (d : Char) (rest cur : List Char) (result : List Tok)
    (h : isdigit d = true) :
    lexRest (d :: rest) cur TokType.num result = lexRest rest (cur ++ [d]) TokType.num result := by
  rw [lexRest]
  simp [isdigit_not_space h, isdigit_not_operator h, isdigit_isalnum h, h]

theorem lexRest_digits_cont (ds : List Char) (hds : ∀ d ∈ ds, isdigit d = true) :
    ∀ (rest cur : List Char) (result : List Tok),
      lexRest (ds ++ rest) cur TokType.num result
        = lexRest rest (cur ++ ds) TokType.num result := by
  induction ds with
  | nil => intro rest cur result; simp
  | cons d ds ih =>
    intro rest cur result
    have hd : isdigit d = true := hds d (List.mem_cons_self _ _)
    rw [List.cons_append, lexRest_digit_cont d _ cur result hd,
      ih (fun x hx => hds x (List.mem_cons_of_mem _ hx))]
    simp

theorem lexRest_digits_open (ds : List Char) (hne : ds ≠ [])
    (hds : ∀ d ∈ ds, isdigit d = true) (rest cur : List Char) (result : List Tok) :
    lexRest (ds ++ rest) cur TokType.invalid result = lexRest rest ds TokType.num result := by
  cases ds with
  | nil => exact absurd rfl hne
  | cons d ds =>
    have hd : isdigit d = true := hds d (List.mem_cons_self _ _)
    rw [List.cons_append, lexRest_digit_open d _ cur result hd,
      lexRest_digits_cont ds (fun x hx => hds x (List.mem_cons_of_mem _ hx))]
    rfl

theorem lexRest_space (c : Char) (rest cur : List Char) (tt : TokType) (result : List Tok)
    (h : isspace c = true) :
    lexRest (c :: rest) cur tt result =
      lexRest rest [] TokType.invalid
        (if tt ≠ TokType.invalid then result ++ [Tok.make tt cur] else result) := by
  rw [lexRest]
  simp [h]

theorem lexRest_op1 (c : Char) (rest cur : List Char) (tt : TokType) (result : List Tok)
    (hs : isspace c = false) (ho : is_operator [c] = true)
    (h2 : is_operator (c :: rest.take 1) = false) :
    lexRest (c :: rest) cur tt result =
      lexRest rest [] TokType.invalid
        ((if tt ≠ TokType.invalid then result ++ [Tok.make tt cur] else result)
          ++ [Tok.make TokType.op [c]]) := by
  rw [lexRest]
  simp [hs, ho, h2]

theorem lexRest_op2 (c d : Char) (rest cur : List Char) (tt : TokType) (result : List Tok)
    (hs : isspace c = false) (ho : is_operator [c] = true)
    (h2 : is_operator [c, d] = true) :
    lexRest (c :: d :: rest) cur tt result =
      lexRest rest [] TokType.invalid
        ((if tt ≠ TokType.invalid then result ++ [Tok.make tt cur] else result)
          ++ [Tok.make TokType.op [c, d]]) := by
  rw [lexRest]
  simp [hs, ho, h2]

theorem is_operator_not_space {c : Char} (h : is_operator [c] = true) : isspace c = false := by
  rw [is_operator_single] at h
  rcases h with rfl | rfl | rfl | rfl | rfl | rfl | rfl | rfl <;> decide

theorem TokOk_flush (tt : TokType) (cur : List Char) (result : List Tok)
    (hcur : tt ≠ TokType.invalid → cur ≠ [] ∧ ∀ ch ∈ cur, isspace ch = false)
    (hres : ∀ t ∈ result, TokOk t) :
    ∀ t ∈ (if tt ≠ TokType.invalid then result ++ [Tok.make tt cur] else result), TokOk t := by
  intro t ht
  by_cases htt : tt = TokType.invalid
  · simp only [htt, ne_eq, not_true_eq_false, ↓reduceIte] at ht
    exact hres t ht
  · simp only [htt, ne_eq, not_false_eq_true, ↓reduceIte] at ht
    rcases List.mem_append.1 ht with h | h
    · exact hres t h
    · rw [List.mem_singleton] at h
      subst h
      exact ⟨htt, hcur htt⟩

theorem TokOk_snoc (result : List Tok) (t0 : Tok) (hres : ∀ t ∈ result, TokOk t)
    (h0 : TokOk t0) : ∀ t ∈ result ++ [t0], TokOk t := by
  intro t ht
  rcases List.mem_append.1 ht with h | h
  · exact hres t h
  · rw [List.mem_singleton] at h
    subst h
    exact h0

theorem lexRest_tokens :
    ∀ (rest cur : List Char) (tt : TokType) (result : List Tok),
      (tt ≠ TokType.invalid → cur ≠ [] ∧ ∀ ch ∈ cur, isspace ch = false) →
      (∀ t ∈ result, TokOk t) →
      ∀ t ∈ (lexRest rest cur tt result).result, TokOk t := by
  intro rest cur tt result
  induction rest, cur, tt, result using lexRest.induct with
  | case1 cur tt result htt =>
    intro hcur hres
    rw [lexRest]
    simp only [htt, ne_eq, not_false_eq_true, ↓reduceIte]
    exact TokOk_snoc _ _ hres ⟨htt, hcur htt⟩
  | case2 cur tt result htt =>
    intro hcur hres
    rw [lexRest]
    simp only [htt, ↓reduceIte]
    exact hres
  | case3 c rest cur tt result h1 h2 h3 ih =>
    intro hcur hres
    have hsp : isspace c = false := by simpa using h2
    obtain ⟨d, r, rfl⟩ : ∃ d r, rest = d :: r := by
      cases rest with
      | nil => simp at h3
      | cons d r => exact ⟨d, r, rfl⟩
    have hop : is_operator [c, d] = true := by simpa using h3
    have hd : d = '=' := ((is_operator_pair c d).1 hop).2
    rw [lexRest]
    simp only [h1, h2, h3, ↓reduceIte]
    simp only [dite_eq_ite] at ih
    refine ih (by simp) (TokOk_snoc _ _ (TokOk_flush tt cur result hcur hres) ?_)
    subst hd
    refine ⟨by simp [Tok.make], by simp [Tok.make], ?_⟩
    intro ch hch
    simp only [Tok.make, List.take_succ_cons, List.take_zero, List.mem_cons,
      List.mem_singleton, List.not_mem_nil, or_false] at hch
    rcases hch with rfl | rfl
    · exact hsp
    · decide
  | case4 c rest cur tt result h1 h2 h3 ih =>
    intro hcur hres
    have hsp : isspace c = false := by simpa using h2
    rw [lexRest]
    simp only [h1, h2, h3, ↓reduceIte, Bool.false_eq_true]
    simp only [dite_eq_ite] at ih
    refine ih (by simp) (TokOk_snoc _ _ (TokOk_flush tt cur result hcur hres) ?_)
    exact ⟨by simp [Tok.make], by simp [Tok.make], by simp [Tok.make, hsp]⟩
  | case5 c rest cur tt result h1 h2 ih =>
    intro hcur hres
    rw [lexRest]
    simp only [h1, h2, ↓reduceIte, Bool.false_eq_true]
    simp only [dite_eq_ite] at ih
    exact ih (by simp) (TokOk_flush tt cur result hcur hres)
  | case6 c rest cur result h1 h2 ih =>
    intro hcur hres
    have hsp : isspace c = false := by
      simp only [Bool.or_eq_true, not_or, Bool.not_eq_true] at h1
      exact h1.1
    rw [lexRest]
    simp only [h1, h2, ↓reduceIte, Bool.false_eq_true]
    simp only [dite_eq_ite] at ih
    exact ih (by intro _; simp [hsp]) hres
  | case7 c rest cur result h1 h2 h3 h4 =>
    intro hcur hres
    rw [lexRest]
    simp only [h1, h2, h3, h4, ↓reduceIte, Bool.false_eq_true]
    exact hres
  | case8 c rest cur result h1 h2 h3 h4 ih =>
    intro hcur hres
    have hsp : isspace c = false := by
      simp only [Bool.or_eq_true, not_or, Bool.not_eq_true] at h1
      exact h1.1
    rw [lexRest]
    simp only [h1, h2, h3, h4, ↓reduceIte, Bool.false_eq_true]
    have hc := hcur (by simp)
    refine ih (fun _ => ⟨by simp, ?_⟩) hres
    intro ch hch
    rcases List.mem_append.1 hch with h | h
    · exact hc.2 ch h
    · rw [List.mem_singleton] at h
      subst h
      exact hsp
  | case9 c rest cur tt result h1 h2 h3 h4 ih =>
    intro hcur hres
    have hsp : isspace c = false := by
      simp only [Bool.or_eq_true, not_or, Bool.not_eq_true] at h1
      exact h1.1
    rw [lexRest]
    simp only [h1, h2, h3, h4, ↓reduceIte, Bool.false_eq_true]
    have hc := hcur h3
    refine ih (fun _ => ⟨by simp, ?_⟩) hres
    intro ch hch
    rcases List.mem_append.1 hch with h | h
    · exact hc.2 ch h
    · rw [List.mem_singleton] at h
      subst h
      exact hsp
  | case10 c rest cur tt result h1 h2 h3 =>
    intro hcur hres
    rw [lexRest]
    simp only [h1, h2, ↓reduceIte, Bool.false_eq_true]
    rw [if_pos h3]
    exact hres
  | case11 c rest cur tt result h1 h2 h3 ih =>
    intro hcur hres
    have hsp : isspace c = false := by
      simp only [Bool.or_eq_true, not_or, Bool.not_eq_true] at h1
      exact h1.1
    rw [lexRest]
    simp only [h1, h2, h3, ↓reduceIte, Bool.false_eq_true]
    exact ih (by intro _; simp [hsp]) hres

theorem lexRest_concat :
    ∀ (rest cur : List Char) (tt : TokType) (result : List Tok),
      (lexRest rest cur tt result).exn = none →
      ((lexRest rest cur tt result).result.map Tok.value).flatten =
        (result.map Tok.value).flatten ++ (if tt = TokType.invalid then [] else cur)
          ++ rest.filter (fun ch => !isspace ch) := by
  intro rest cur tt result
  induction rest, cur, tt, result using lexRest.induct with
  | case1 cur tt result htt =>
    intro _
    rw [lexRest]
    simp [htt, Tok.make]
  | case2 cur tt result htt =>
    intro _
    rw [lexRest]
    have htt2 : tt = TokType.invalid := by simpa using htt
    simp [htt2]
  | case3 c rest cur tt result h1 h2 h3 ih =>
    have hsp : isspace c = false := by simpa using h2
    obtain ⟨d, r, rfl⟩ : ∃ d r, rest = d :: r := by
      cases rest with
      | nil => simp at h3
      | cons d r => exact ⟨d, r, rfl⟩
    have hop : is_operator [c, d] = true := by simpa using h3
    have hd : d = '=' := ((is_operator_pair c d).1 hop).2
    rw [lexRest]
    simp only [h1, h2, h3, ↓reduceIte]
    simp only [dite_eq_ite] at ih
    intro hexn
    rw [ih hexn]
    subst hd
    have hd2 : isspace '=' = false := by decide
    by_cases htt : tt = TokType.invalid
    · simp [htt, Tok.make, hsp, hd2, List.filter_cons]
    · simp [htt, Tok.make, hsp, hd2, List.filter_cons]
  | case4 c rest cur tt result h1 h2 h3 ih =>
    have hsp : isspace c = false := by simpa using h2
    rw [lexRest]
    simp only [h1, h2, h3, ↓reduceIte, Bool.false_eq_true]
    simp only [dite_eq_ite] at ih
    intro hexn
    rw [ih hexn]
    by_cases htt : tt = TokType.invalid
    · simp [htt, Tok.make, hsp, List.filter_cons]
    · simp [htt, Tok.make, hsp, List.filter_cons]
  | case5 c rest cur tt result h1 h2 ih =>
    have hsp : isspace c = true := by simpa using h2
    rw [lexRest]
    simp only [h1, h2, ↓reduceIte, Bool.false_eq_true]
    simp only [dite_eq_ite] at ih
    intro hexn
    rw [ih hexn]
    by_cases htt : tt = TokType.invalid
    · simp [htt, Tok.make, hsp, List.filter_cons]
    · simp [htt, Tok.make, hsp, List.filter_cons]
  | case6 c rest cur result h1 h2 ih =>
    have hsp : isspace c = false := by
      simp only [Bool.or_eq_true, not_or, Bool.not_eq_true] at h1
      exact h1.1
    rw [lexRest]
    simp only [h1, h2, ↓reduceIte, Bool.false_eq_true]
    simp only [dite_eq_ite] at ih
    intro hexn
    rw [ih hexn]
    have hne : (if isdigit c = true then TokType.num else TokType.id) ≠ TokType.invalid := by
      split <;> simp
    simp [hne, hsp, List.filter_cons]
  | case7 c rest cur result h1 h2 h3 h4 =>
    rw [lexRest]
    simp [h1, h2, h3]
  | case8 c rest cur result h1 h2 h3 h4 ih =>
    have hsp : isspace c = false := by
      simp only [Bool.or_eq_true, not_or, Bool.not_eq_true] at h1
      exact h1.1
    rw [lexRest]
    simp only [h1, h2, h3, h4, ↓reduceIte, Bool.false_eq_true]
    intro hexn
    rw [ih hexn]
    simp [hsp, List.filter_cons]
  | case9 c rest cur tt result h1 h2 h3 h4 ih =>
    have hsp : isspace c = false := by
      simp only [Bool.or_eq_true, not_or, Bool.not_eq_true] at h1
      exact h1.1
    rw [lexRest]
    simp only [h1, h2, h3, h4, ↓reduceIte, Bool.false_eq_true]
    intro hexn
    rw [ih hexn]
    simp [h3, hsp, List.filter_cons]
  | case10 c rest cur tt result h1 h2 h3 =>
    rw [lexRest]
    simp [h1, h2, h3]
  | case11 c rest cur tt result h1 h2 h3 ih =>
    have hsp : isspace c = false := by
      simp only [Bool.or_eq_true, not_or, Bool.not_eq_true] at h1
      exact h1.1
    have htt : tt = TokType.invalid := by simpa using h3
    subst htt
    rw [lexRest]
    simp only [h1, h2, ↓reduceIte, Bool.false_eq_true]
    intro hexn
    simp only [ne_eq, not_true_eq_false, ↓reduceIte] at hexn ⊢
    rw [ih hexn]
    simp [hsp, List.filter_cons]

/-- C7: a non-empty string of decimal digits is tokenized, without failure, to
exactly one token, of kind `num`, whose text is the string. -/
theorem lexer_digits (n : List Char) (hne : n ≠ []) (hd : ∀ c ∈ n, isdigit c = true) :
    lexer n = ⟨[Tok.make TokType.num n], none⟩ := by
  rw [lexer_eq_lexRest]
  have h := lexRest_digits_open n hne hd [] [] []
  rw [List.append_nil] at h
  rw [h, lexRest_nil]
  simp

/-- C7 at the literal `2024`. -/
theorem lexer_digits_witness :
    lexer ['2', '0', '2', '4'] = ⟨[Tok.make TokType.num ['2', '0', '2', '4']], none⟩ :=
  lexer_digits ['2', '0', '2', '4'] (by decide) (by decide)

/-- C8: on a line the lexer accepts, no token is empty, no token contains a
whitespace character, and the token texts concatenated in order are the line
with its whitespace characters removed. -/
theorem lexer_partition (in_str : List Char) (h : (lexer in_str).exn = none) :
    (∀ t ∈ (lexer in_str).result, t.value ≠ [] ∧ ∀ ch ∈ t.value, isspace ch = false) ∧
      ((lexer in_str).result.map Tok.value).flatten
        = in_str.filter (fun ch => !isspace ch) := by
  rw [lexer_eq_lexRest] at h ⊢
  refine ⟨fun t ht => ?_, ?_⟩
  · exact (lexRest_tokens in_str [] TokType.invalid [] (by simp) (by simp) t ht).2
  · simpa using lexRest_concat in_str [] TokType.invalid [] h

/-- C8 at the line `12 +(ab <= 3)`. -/
theorem lexer_partition_witness :
    (∀ t ∈ (lexer "12 +(ab <= 3)".toList).result,
        t.value ≠ [] ∧ ∀ ch ∈ t.value, isspace ch = false) ∧
      ((lexer "12 +(ab <= 3)".toList).result.map Tok.value).flatten
        = "12 +(ab <= 3)".toList.filter (fun ch => !isspace ch) :=
  lexer_partition "12 +(ab <= 3)".toList (by decide)

/-! ### Cursor steps -/

theorem pAcceptOp_true (c : Context) (exp : Op) (hexp : exp ≠ Op.invalid)
    (h : (pAcceptOp c exp).1 = true) :
    ∃ t, t.op = exp ∧ c.ts.rest = t :: (pAcceptOp c exp).2.ts.rest := by
  unfold pAcceptOp at h ⊢
  by_cases hop : c.deref.op = exp
  · simp only [hop, ↓reduceIte] at h ⊢
    cases hr : c.ts.rest with
    | nil =>
      exfalso
      apply hexp
      rw [← hop]
      simp [Context.deref, TokenStream.get, hr, Tok.default, Tok.make]
    | cons t r =>
      refine ⟨t, ?_, ?_⟩
      · rw [← hop]
        simp [Context.deref, TokenStream.get, hr]
      · simp [Context.postInc, TokenStream.next, hr]
  · simp [hop] at h

theorem pAcceptOp_false (c : Context) (exp : Op) (h : (pAcceptOp c exp).1 = false) :
    (pAcceptOp c exp).2 = c := by
  unfold pAcceptOp at h ⊢
  by_cases hop : c.deref.op = exp
  · simp [hop] at h
  · simp [hop]

theorem AcceptOneOf_spec (c : Context) (ops : List Op) (hops : Op.invalid ∉ ops) :
    ((AcceptOneOf c ops).1 = Op.invalid ∧ (AcceptOneOf c ops).2 = c) ∨
      ((AcceptOneOf c ops).1 ∈ ops ∧
        ∃ t, t.op = (AcceptOneOf c ops).1 ∧ c.ts.rest = t :: (AcceptOneOf c ops).2.ts.rest) := by
  induction ops with
  | nil => left; simp [AcceptOneOf]
  | cons op ops ih =>
    have hop : op ≠ Op.invalid := fun h => hops (h ▸ List.mem_cons_self _ _)
    have hops2 : Op.invalid ∉ ops := fun h => hops (List.mem_cons_of_mem _ h)
    unfold AcceptOneOf
    by_cases h : (pAcceptOp c op).1 = true
    · right
      simp only [h, ↓reduceIte]
      exact ⟨List.mem_cons_self _ _, pAcceptOp_true c op hop h⟩
    · simp only [h]
      rcases ih hops2 with h1 | h1
      · left; simpa using h1
      · right
        simp only [Bool.false_eq_true, ↓reduceIte]
        exact ⟨List.mem_cons_of_mem _ h1.1, h1.2⟩

theorem pAcceptLiteralInt_some (c c1 : Context) (e : Construct)
    (h : pAcceptLiteralInt c = .ok (some e, c1)) :
    ∃ t, t.type = TokType.num ∧ c.ts.rest = t :: c1.ts.rest := by
  unfold pAcceptLiteralInt at h
  by_cases hty : c.deref.type = TokType.num
  · simp only [hty, ↓reduceIte] at h
    cases hr : c.ts.rest with
    | nil =>
      simp [Context.deref, TokenStream.get, hr, Tok.default, Tok.make] at hty
    | cons t r =>
      refine ⟨t, ?_, ?_⟩
      · simpa [Context.deref, TokenStream.get, hr] using hty
      · cases hs : stol c.get_str with
        | error x => simp [hs] at h
        | ok n =>
          simp only [hs, Except.ok.injEq, Prod.mk.injEq] at h
          rw [← h.2]
          simp [Context.postInc, TokenStream.next, hr]
  · simp [hty] at h

theorem pAcceptLiteralInt_none (c c1 : Context)
    (h : pAcceptLiteralInt c = .ok (none, c1)) : c1 = c := by
  unfold pAcceptLiteralInt at h
  by_cases hty : c.deref.type = TokType.num
  · simp only [hty, ↓reduceIte] at h
    cases hs : stol c.get_str with
    | error x => simp [hs] at h
    | ok n => simp [hs] at h
  · simp only [hty, ↓reduceIte, Except.ok.injEq, Prod.mk.injEq, true_and] at h
    exact h.symm

theorem pAcceptLiteralInt_error (c : Context) (x : Exn) (hl : LitsOk c.ts.rest)
    (h : pAcceptLiteralInt c = .error x) : False := by
  unfold pAcceptLiteralInt at h
  by_cases hty : c.deref.type = TokType.num
  · simp only [hty, ↓reduceIte] at h
    cases hr : c.ts.rest with
    | nil =>
      simp [Context.deref, TokenStream.get, hr, Tok.default, Tok.make] at hty
    | cons t r =>
      have ht : t.type = TokType.num := by
        simpa [Context.deref, TokenStream.get, hr] using hty
      obtain ⟨n, hn⟩ := hl t (by rw [hr]; exact List.mem_cons_self _ _) ht
      have hv : c.get_str = t.value := by
        simp [Context.get_str, TokenStream.get, hr]
      rw [hv, hn] at h
      simp at h
  · simp [hty] at h

theorem pExpectOp_ok (c c1 : Context) (exp : Op) (hexp : exp ≠ Op.invalid)
    (h : pExpectOp c exp = .ok c1) :
    ∃ t, t.op = exp ∧ c.ts.rest = t :: c1.ts.rest := by
  unfold pExpectOp at h
  by_cases ha : (pAcceptOp c exp).1 = true
  · simp only [ha, ↓reduceIte, Except.ok.injEq] at h
    rw [← h]
    exact pAcceptOp_true c exp hexp ha
  · simp [ha] at h

theorem pExpectOp_error (c : Context) (exp : Op) (x : Exn)
    (h : pExpectOp c exp = .error x) : x = Exn.SyntaxErrorEx := by
  unfold pExpectOp at h
  by_cases ha : (pAcceptOp c exp).1 = true
  · simp [ha] at h
  · simp only [ha, Bool.false_eq_true, ↓reduceIte, Except.error.injEq] at h
    exact h.symm

theorem EndsOperand_append (xs ys : List Tok) (h : EndsOperand ys) : EndsOperand (xs ++ ys) := by
  obtain ⟨t, ht, hp⟩ := h
  refine ⟨t, ?_, hp⟩
  have hne : ys ≠ [] := by
    intro h0
    rw [h0] at ht
    simp at ht
  rw [List.getLast?_append_of_ne_nil _ hne]
  exact ht

theorem EndsOperand_ne_nil (xs : List Tok) (h : EndsOperand xs) : xs ≠ [] := by
  obtain ⟨t, ht, _⟩ := h
  intro h0
  rw [h0] at ht
  simp at ht

/-! ### Progress of the parse functions -/

theorem progress_pExpr01 (top : Context → ParseResult) (htop : Progress top) :
    Progress (pExpr01 top) := by
  intro c r c1 h
  unfold pExpr01 at h
  cases hl : pAcceptLiteralInt c with
  | error x => simp [hl] at h
  | ok v =>
    obtain ⟨o, c2⟩ := v
    cases o with
    | some e =>
      simp only [hl, Except.ok.injEq, Prod.mk.injEq] at h
      obtain ⟨t, ht, hr⟩ := pAcceptLiteralInt_some c c2 e hl
      refine ⟨[t], ?_, ⟨t, by simp, Or.inl ht⟩⟩
      rw [← h.2]
      simpa using hr
    | none =>
      have hc2 := pAcceptLiteralInt_none c c2 hl
      subst hc2
      simp only [hl] at h
      by_cases hp : (pAcceptOp c2 Op.parenL).1 = true
      · simp only [hp, ↓reduceIte] at h
        obtain ⟨t, _, hr⟩ := pAcceptOp_true c2 Op.parenL (by decide) hp
        cases ht : top (pAcceptOp c2 Op.parenL).2 with
        | error x => simp [ht] at h
        | ok v =>
          obtain ⟨e, c3⟩ := v
          simp only [ht] at h
          cases he : pExpectOp c3 Op.parenR with
          | error x => simp [he] at h
          | ok c4 =>
            simp only [he, Except.ok.injEq, Prod.mk.injEq] at h
            obtain ⟨used, hu, _⟩ := htop _ _ _ ht
            obtain ⟨t2, ht2, hr2⟩ := pExpectOp_ok c3 c4 Op.parenR (by decide) he
            refine ⟨(t :: used) ++ [t2], ?_, EndsOperand_append _ _ ⟨t2, by simp, Or.inr ht2⟩⟩
            rw [← h.2, hr, hu, hr2]
            simp
      · simp [hp] at h

theorem progress_loop (lower : Context → ParseResult) (ops : List Op)
    (hops : Op.invalid ∉ ops) (hlow : Progress lower) :
    ∀ (fuel : Nat) (c : Context) (elems : List (Op × Construct))
      (elems1 : List (Op × Construct)) (c1 : Context),
      pExprGenericLoop lower ops fuel c elems = .ok (elems1, c1) →
      ∃ used, c.ts.rest = used ++ c1.ts.rest ∧ (used = [] ∨ EndsOperand used) := by
  intro fuel
  induction fuel with
  | zero =>
    intro c elems elems1 c1 h
    unfold pExprGenericLoop at h
    rcases AcceptOneOf_spec c ops hops with ⟨h1, h2⟩ | ⟨h1, _⟩
    · simp only [h1, ne_eq, not_true_eq_false, ↓reduceIte, Except.ok.injEq, Prod.mk.injEq] at h
      refine ⟨[], ?_, Or.inl rfl⟩
      rw [← h.2, h2]
      rfl
    · have hne : (AcceptOneOf c ops).1 ≠ Op.invalid := fun h0 => hops (h0 ▸ h1)
      simp [hne] at h
  | succ fuel ih =>
    intro c elems elems1 c1 h
    unfold pExprGenericLoop at h
    rcases AcceptOneOf_spec c ops hops with ⟨h1, h2⟩ | ⟨h1, t, _, hr⟩
    · simp only [h1, ne_eq, not_true_eq_false, ↓reduceIte, Except.ok.injEq, Prod.mk.injEq] at h
      refine ⟨[], ?_, Or.inl rfl⟩
      rw [← h.2, h2]
      rfl
    · have hne : (AcceptOneOf c ops).1 ≠ Op.invalid := fun h0 => hops (h0 ▸ h1)
      simp only [hne, ne_eq, not_false_eq_true, ↓reduceIte] at h
      cases hl : lower (AcceptOneOf c ops).2 with
      | error x => simp [hl] at h
      | ok v =>
        obtain ⟨e, c2⟩ := v
        simp only [hl] at h
        obtain ⟨used, hu, hend⟩ := hlow _ _ _ hl
        obtain ⟨used2, hu2, hx⟩ := ih _ _ _ _ h
        refine ⟨(t :: used) ++ used2, ?_, Or.inr ?_⟩
        · rw [hr, hu, hu2]
          simp
        · rcases hx with hx | hx
          · rw [hx, List.append_nil]
            exact EndsOperand_append [t] used hend
          · exact EndsOperand_append _ _ hx

theorem progress_pExprGeneric (mk : List (Op × Construct) → Construct) (allow : Bool)
    (lower : Context → ParseResult) (ops : List Op) (fuel : Nat)
    (hops : Op.invalid ∉ ops) (hlow : Progress lower) :
    Progress (pExprGeneric mk allow lower ops fuel) := by
  intro c r c1 h
  unfold pExprGeneric at h
  simp only at h
  have hfirst : ∃ pre, c.ts.rest
      = pre ++ (if allow = true then AcceptOneOf c ops else (Op.invalid, c)).2.ts.rest := by
    cases allow with
    | false => exact ⟨[], rfl⟩
    | true =>
      rcases AcceptOneOf_spec c ops hops with ⟨_, h2⟩ | ⟨_, t, _, hr⟩
      · exact ⟨[], by simp [h2]⟩
      · exact ⟨[t], by simpa using hr⟩
  obtain ⟨pre, hpre⟩ := hfirst
  cases hl : lower (if allow = true then AcceptOneOf c ops else (Op.invalid, c)).2 with
  | error x => simp [hl] at h
  | ok v =>
    obtain ⟨e, c2⟩ := v
    simp only [hl] at h
    obtain ⟨used, hu, hend⟩ := hlow _ _ _ hl
    cases hlp : pExprGenericLoop lower ops fuel c2
        [((if allow = true then AcceptOneOf c ops else (Op.invalid, c)).1, e)] with
    | error x => simp [hlp] at h
    | ok w =>
      obtain ⟨elems, c3⟩ := w
      simp only [hlp, Except.ok.injEq, Prod.mk.injEq] at h
      obtain ⟨used2, hu2, hx⟩ := progress_loop lower ops hops hlow _ _ _ _ _ hlp
      refine ⟨(pre ++ used) ++ used2, ?_, ?_⟩
      · rw [hpre, hu, hu2, ← h.2]
        simp
      · rcases hx with hx | hx
        · rw [hx, List.append_nil]
          exact EndsOperand_append _ _ hend
        · exact EndsOperand_append _ _ hx

theorem progress_pExprTop : ∀ fuel : Nat, Progress (pExprTop fuel) := by
  intro fuel
  induction fuel with
  | zero =>
    intro c r c1 h
    simp [pExprTop] at h
  | succ fuel ih =>
    intro c r c1 h
    have h06 : pExprTop (fuel + 1) c = pExpr06 (pExprTop fuel) fuel c := rfl
    rw [h06] at h
    have p01 := progress_pExpr01 (pExprTop fuel) ih
    have p03 : Progress (pExpr03 (pExprTop fuel) fuel) :=
      progress_pExprGeneric _ _ _ _ _ (by decide) p01
    have p04 : Progress (pExpr04 (pExprTop fuel) fuel) :=
      progress_pExprGeneric _ _ _ _ _ (by decide) p03
    exact progress_pExprGeneric _ _ _ _ _ (by decide) p04 c r c1 h

/-! ### Fuel is sufficient and only syntax errors arise -/

theorem LitsOk_suffix (xs ys : List Tok) (h : LitsOk (xs ++ ys)) : LitsOk ys :=
  fun t ht hty => h t (List.mem_append_right _ ht) hty

theorem adequate_pExpr01 (top : Context → ParseResult) (k : Nat)
    (htop : Adequate top k) : Adequate (pExpr01 top) (k + 1) := by
  intro c hc hlit x h
  unfold pExpr01 at h
  cases hl : pAcceptLiteralInt c with
  | error y => exact (pAcceptLiteralInt_error c y hlit hl).elim
  | ok v =>
    obtain ⟨o, c2⟩ := v
    cases o with
    | some e => simp [hl] at h
    | none =>
      have hc2 := pAcceptLiteralInt_none c c2 hl
      subst hc2
      simp only [hl] at h
      by_cases hp : (pAcceptOp c2 Op.parenL).1 = true
      · simp only [hp, ↓reduceIte] at h
        obtain ⟨t, _, hr⟩ := pAcceptOp_true c2 Op.parenL (by decide) hp
        cases ht : top (pAcceptOp c2 Op.parenL).2 with
        | error y =>
          simp only [ht, Except.error.injEq] at h
          subst h
          refine htop _ ?_ ?_ _ ht
          · unfold Context.remaining at hc ⊢
            rw [hr] at hc
            simpa using hc
          · rw [hr] at hlit
            exact LitsOk_suffix [t] _ hlit
        | ok v =>
          obtain ⟨e, c3⟩ := v
          simp only [ht] at h
          cases he : pExpectOp c3 Op.parenR with
          | error y =>
            simp only [he, Except.error.injEq] at h
            subst h
            exact pExpectOp_error _ _ _ he
          | ok c4 => simp [he] at h
      · simp only [hp, Bool.false_eq_true, ↓reduceIte, Except.error.injEq] at h
        exact h.symm

theorem adequate_loop (lower : Context → ParseResult) (ops : List Op) (K : Nat)
    (hops : Op.invalid ∉ ops) (hprog : Progress lower) (hlow : Adequate lower K) :
    ∀ (fuel : Nat) (c : Context) (elems : List (Op × Construct)) (x : Exn),
      c.remaining ≤ fuel → c.remaining ≤ K → LitsOk c.ts.rest →
      pExprGenericLoop lower ops fuel c elems = .error x → x = Exn.SyntaxErrorEx := by
  intro fuel
  induction fuel with
  | zero =>
    intro c elems x hf _ _ h
    unfold pExprGenericLoop at h
    rcases AcceptOneOf_spec c ops hops with ⟨h1, _⟩ | ⟨_, t, _, hr⟩
    · simp [h1] at h
    · unfold Context.remaining at hf
      rw [hr] at hf
      simp at hf
  | succ fuel ih =>
    intro c elems x hf hK hlit h
    unfold pExprGenericLoop at h
    rcases AcceptOneOf_spec c ops hops with ⟨h1, _⟩ | ⟨h1, t, _, hr⟩
    · simp [h1] at h
    · have hne : (AcceptOneOf c ops).1 ≠ Op.invalid := fun h0 => hops (h0 ▸ h1)
      simp only [hne, ne_eq, not_false_eq_true, ↓reduceIte] at h
      have hlen : (AcceptOneOf c ops).2.remaining + 1 = c.remaining := by
        unfold Context.remaining
        rw [hr]
        simp
      have hlit1 : LitsOk (AcceptOneOf c ops).2.ts.rest := by
        rw [hr] at hlit
        exact LitsOk_suffix [t] _ hlit
      cases hl : lower (AcceptOneOf c ops).2 with
      | error y =>
        simp only [hl, Except.error.injEq] at h
        subst h
        exact hlow _ (by omega) hlit1 _ hl
      | ok v =>
        obtain ⟨e, c2⟩ := v
        simp only [hl] at h
        obtain ⟨used, hu, hend⟩ := hprog _ _ _ hl
        have hlen2 : c2.remaining ≤ (AcceptOneOf c ops).2.remaining := by
          unfold Context.remaining
          rw [hu]
          simp
        refine ih c2 _ x (by omega) (by omega) ?_ h
        rw [hu] at hlit1
        exact LitsOk_suffix _ _ hlit1

theorem adequate_pExprGeneric (mk : List (Op × Construct) → Construct) (allow : Bool)
    (lower : Context → ParseResult) (ops : List Op) (k : Nat)
    (hops : Op.invalid ∉ ops) (hprog : Progress lower) (hlow : Adequate lower (k + 1)) :
    Adequate (pExprGeneric mk allow lower ops k) (k + 1) := by
  intro c hc hlit x h
  unfold pExprGeneric at h
  simp only at h
  have hfirst : ∃ pre, c.ts.rest
      = pre ++ (if allow = true then AcceptOneOf c ops else (Op.invalid, c)).2.ts.rest := by
    cases allow with
    | false => exact ⟨[], rfl⟩
    | true =>
      rcases AcceptOneOf_spec c ops hops with ⟨_, h2⟩ | ⟨_, t, _, hr⟩
      · exact ⟨[], by simp [h2]⟩
      · exact ⟨[t], by simpa using hr⟩
  obtain ⟨pre, hpre⟩ := hfirst
  have hlen0 : (if allow = true then AcceptOneOf c ops else (Op.invalid, c)).2.remaining
      ≤ c.remaining := by
    unfold Context.remaining
    rw [hpre]
    simp
  have hlit0 : LitsOk (if allow = true then AcceptOneOf c ops else (Op.invalid, c)).2.ts.rest := by
    rw [hpre] at hlit
    exact LitsOk_suffix _ _ hlit
  cases hl : lower (if allow = true then AcceptOneOf c ops else (Op.invalid, c)).2 with
  | error y =>
    simp only [hl, Except.error.injEq] at h
    subst h
    exact hlow _ (by omega) hlit0 _ hl
  | ok v =>
    obtain ⟨e, c2⟩ := v
    simp only [hl] at h
    obtain ⟨used, hu, hend⟩ := hprog _ _ _ hl
    have hne := EndsOperand_ne_nil used hend
    have hlen2 : c2.remaining
        < (if allow = true then AcceptOneOf c ops else (Op.invalid, c)).2.remaining := by
      unfold Context.remaining
      rw [hu]
      have : 0 < used.length := List.length_pos.2 hne
      simp
      omega
    have hlit2 : LitsOk c2.ts.rest := by
      rw [hu] at hlit0
      exact LitsOk_suffix _ _ hlit0
    cases hlp : pExprGenericLoop lower ops k c2
        [((if allow = true then AcceptOneOf c ops else (Op.invalid, c)).1, e)] with
    | error y =>
      simp only [hlp, Except.error.injEq] at h
      subst h
      exact adequate_loop lower ops (k + 1) hops hprog hlow k c2 _ _ (by omega) (by omega)
        hlit2 hlp
    | ok w => simp [hlp] at h

theorem adequate_pExprTop : ∀ k : Nat, Adequate (pExprTop k) k := by
  intro k
  induction k with
  | zero =>
    intro c hc
    exact absurd hc (Nat.not_lt_zero _)
  | succ k ih =>
    have g01 := progress_pExpr01 (pExprTop k) (progress_pExprTop k)
    have g03 : Progress (pExpr03 (pExprTop k) k) :=
      progress_pExprGeneric _ _ _ _ _ (by decide) g01
    have g04 : Progress (pExpr04 (pExprTop k) k) :=
      progress_pExprGeneric _ _ _ _ _ (by decide) g03
    have a01 := adequate_pExpr01 (pExprTop k) k ih
    have a03 : Adequate (pExpr03 (pExprTop k) k) (k + 1) :=
      adequate_pExprGeneric _ _ _ _ _ (by decide) g01 a01
    have a04 : Adequate (pExpr04 (pExprTop k) k) (k + 1) :=
      adequate_pExprGeneric _ _ _ _ _ (by decide) g03 a03
    exact adequate_pExprGeneric Construct.Expr06 false _ _ _ (by decide) g04 a04

/-- A successful `parse` leaves a suffix of the token vector, and the tokens
it consumed end with a number or a closing parenthesis. -/
theorem parse_progress (tokens : List Tok) (root : Construct) (ctx : Context)
    (h : parse tokens = .ok (root, ctx)) :
    ∃ used, tokens = used ++ ctx.ts.rest ∧ EndsOperand used :=
  progress_pExprTop _ _ _ _ h

/-- With literals in machine range, `parse` fails only with `SyntaxErrorEx`: it
neither runs out of fuel nor fails in `stol`. -/
theorem parse_error (tokens : List Tok) (hlit : LitsOk tokens) (x : Exn)
    (h : parse tokens = .error x) : x = Exn.SyntaxErrorEx :=
  adequate_pExprTop _ _ (by simp [Context.remaining, Context.start]) hlit x h

/-! ### Results do not depend on the amount of fuel -/

theorem stable_pExpr01 (top top1 : Context → ParseResult) (h : FuelStable top top1) :
    FuelStable (pExpr01 top) (pExpr01 top1) := by
  intro c hc
  unfold pExpr01 at hc ⊢
  cases hl : pAcceptLiteralInt c with
  | error x => rfl
  | ok v =>
    obtain ⟨o, c2⟩ := v
    cases o with
    | some e => rfl
    | none =>
      simp only [hl] at hc ⊢
      by_cases hp : (pAcceptOp c2 Op.parenL).1 = true
      · simp only [hp, ↓reduceIte] at hc ⊢
        have ht : top1 (pAcceptOp c2 Op.parenL).2 = top (pAcceptOp c2 Op.parenL).2 := by
          apply h
          intro h0
          rw [h0] at hc
          exact hc rfl
        rw [ht]
      · simp [hp]

theorem stable_loop (lower lower1 : Context → ParseResult) (ops : List Op)
    (h : FuelStable lower lower1) :
    ∀ (fuel fuel1 : Nat), fuel ≤ fuel1 → ∀ (c : Context) (elems : List (Op × Construct)),
      pExprGenericLoop lower ops fuel c elems ≠ .error Exn.OutOfFuel →
      pExprGenericLoop lower1 ops fuel1 c elems = pExprGenericLoop lower ops fuel c elems := by
  intro fuel
  induction fuel with
  | zero =>
    intro fuel1 _ c elems hc
    unfold pExprGenericLoop at hc
    by_cases ha : (AcceptOneOf c ops).1 ≠ Op.invalid
    · rw [if_pos ha] at hc
      exact absurd rfl hc
    · unfold pExprGenericLoop
      simp only [if_neg ha]
  | succ fuel ih =>
    intro fuel1 hle c elems hc
    obtain ⟨f1, rfl⟩ : ∃ f1, fuel1 = f1 + 1 := ⟨fuel1 - 1, by omega⟩
    unfold pExprGenericLoop at hc ⊢
    by_cases ha : (AcceptOneOf c ops).1 ≠ Op.invalid
    · simp only [if_pos ha] at hc ⊢
      have hl : lower1 (AcceptOneOf c ops).2 = lower (AcceptOneOf c ops).2 := by
        apply h
        intro h0
        rw [h0] at hc
        exact hc rfl
      rw [hl]
      cases hr : lower (AcceptOneOf c ops).2 with
      | error x => rfl
      | ok v =>
        obtain ⟨e, c1⟩ := v
        simp only [hr] at hc ⊢
        exact ih f1 (by omega) c1 _ hc
    · simp only [if_neg ha]

theorem stable_pExprGeneric (mk : List (Op × Construct) → Construct) (allow : Bool)
    (lower lower1 : Context → ParseResult) (ops : List Op) (fuel fuel1 : Nat)
    (h : FuelStable lower lower1) (hle : fuel ≤ fuel1) :
    FuelStable (pExprGeneric mk allow lower ops fuel) (pExprGeneric mk allow lower1 ops fuel1) := by
  intro c hc
  unfold pExprGeneric at hc ⊢
  simp only at hc ⊢
  have hl : lower1 (if allow = true then AcceptOneOf c ops else (Op.invalid, c)).2
      = lower (if allow = true then AcceptOneOf c ops else (Op.invalid, c)).2 := by
    apply h
    intro h0
    rw [h0] at hc
    exact hc rfl
  rw [hl]
  cases hr : lower (if allow = true then AcceptOneOf c ops else (Op.invalid, c)).2 with
  | error x => rfl
  | ok v =>
    obtain ⟨e, c1⟩ := v
    simp only [hr] at hc ⊢
    have hlp := stable_loop lower lower1 ops h fuel fuel1 hle c1
      [((if allow = true then AcceptOneOf c ops else (Op.invalid, c)).1, e)] (by
        intro h0
        rw [h0] at hc
        exact hc rfl)
    rw [hlp]

/-- More fuel does not change a result of the top rule other than running out
of fuel. -/
theorem stable_pExprTop : ∀ (n m : Nat), n ≤ m → FuelStable (pExprTop n) (pExprTop m) := by
  intro n
  induction n with
  | zero =>
    intro m _ c hc
    exact absurd rfl hc
  | succ n ih =>
    intro m hle
    obtain ⟨m1, rfl⟩ : ∃ m1, m = m1 + 1 := ⟨m - 1, by omega⟩
    have hnm : n ≤ m1 := by omega
    have s01 := stable_pExpr01 _ _ (ih m1 hnm)
    have s03 : FuelStable (pExpr03 (pExprTop n) n) (pExpr03 (pExprTop m1) m1) :=
      stable_pExprGeneric _ _ _ _ _ _ _ s01 hnm
    have s04 : FuelStable (pExpr04 (pExprTop n) n) (pExpr04 (pExprTop m1) m1) :=
      stable_pExprGeneric _ _ _ _ _ _ _ s03 hnm
    exact stable_pExprGeneric Construct.Expr06 false _ _ _ _ _ s04 hnm

/-- The result of `parse`, unless it is running out of fuel, is the result of
the top rule for every larger amount of fuel. -/
theorem parse_fuel (tokens : List Tok) (m : Nat) (hm : tokens.length + 1 ≤ m)
    (h : parse tokens ≠ .error Exn.OutOfFuel) :
    pExprTop m (Context.start tokens) = parse tokens :=
  stable_pExprTop _ m hm _ h

theorem lexRest_exn :
    ∀ (rest cur : List Char) (tt : TokType) (result : List Tok),
      (lexRest rest cur tt result).exn = none ∨
        ∃ val, (lexRest rest cur tt result).exn = some (Exn.InvalidTokenEx val) := by
  intro rest cur tt result
  induction rest, cur, tt, result using lexRest.induct with
  | case1 cur tt result htt =>
    rw [lexRest]; simp [htt]
  | case2 cur tt result htt =>
    rw [lexRest]; simp [htt]
  | case3 c rest cur tt result h1 h2 h3 ih =>
    rw [lexRest]
    simp only [h1, h2, h3, ↓reduceIte]
    simpa only [dite_eq_ite] using ih
  | case4 c rest cur tt result h1 h2 h3 ih =>
    rw [lexRest]
    simp only [h1, h2, h3, ↓reduceIte, Bool.false_eq_true]
    simpa only [dite_eq_ite] using ih
  | case5 c rest cur tt result h1 h2 ih =>
    rw [lexRest]
    simp only [h1, h2, ↓reduceIte, Bool.false_eq_true]
    simpa only [dite_eq_ite] using ih
  | case6 c rest cur result h1 h2 ih =>
    rw [lexRest]
    simp only [h1, h2, ↓reduceIte, Bool.false_eq_true]
    simpa only [dite_eq_ite] using ih
  | case7 c rest cur result h1 h2 h3 h4 =>
    rw [lexRest]
    simp only [h1, h2, h3, h4, ↓reduceIte, Bool.false_eq_true]
    exact Or.inr ⟨_, rfl⟩
  | case8 c rest cur result h1 h2 h3 h4 ih =>
    rw [lexRest]
    simp only [h1, h2, h3, h4, ↓reduceIte, Bool.false_eq_true]
    exact ih
  | case9 c rest cur tt result h1 h2 h3 h4 ih =>
    rw [lexRest]
    simp only [h1, h2, h3, h4, ↓reduceIte, Bool.false_eq_true]
    exact ih
  | case10 c rest cur tt result h1 h2 h3 =>
    rw [lexRest]
    simp only [h1, h2, ↓reduceIte, Bool.false_eq_true]
    rw [if_pos h3]
    exact Or.inr ⟨_, rfl⟩
  | case11 c rest cur tt result h1 h2 h3 ih =>
    rw [lexRest]
    simp only [h1, h2, h3, ↓reduceIte, Bool.false_eq_true]
    exact ih

/-- The lexer ends normally or with `InvalidTokenEx`: `in_str.length`
iterations of the loop are always enough. -/
theorem lexer_exn (in_str : List Char) :
    (lexer in_str).exn = none ∨ ∃ val, (lexer in_str).exn = some (Exn.InvalidTokenEx val) := by
  rw [lexer_eq_lexRest]
  exact lexRest_exn _ _ _ _

/-- With more fuel than `in_str.length` the loop of `lexer` gives the same
result. -/
theorem lexer_fuel (in_str : List Char) (fuel : Nat) (h : in_str.length ≤ fuel) :
    lexLoop in_str fuel 0 0 TokType.invalid [] = lexer in_str := by
  rw [lexer_eq_lexRest]
  exact lexLoop_eq_lexRest in_str fuel 0 0 TokType.invalid [] [] (Nat.zero_le _) (by omega)
    (by simp)

/-! ### The end-of-input check and trailing tokens -/

/-- Every token the lexer appends, also before a failure, has a kind other
than the sentinel kind, a non-empty text and no whitespace in it. -/
theorem lexer_tokens_ok (in_str : List Char) : ∀ t ∈ (lexer in_str).result, TokOk t := by
  rw [lexer_eq_lexRest]
  exact lexRest_tokens in_str [] TokType.invalid [] (by simp) (by simp)

/-- The driver's end-of-input check fails exactly when tokens are left over,
provided no token has the sentinel kind. -/
theorem deref_type_invalid_iff (tokens used : List Tok) (ctx : Context)
    (hkind : ∀ t ∈ tokens, t.type ≠ TokType.invalid)
    (hu : tokens = used ++ ctx.ts.rest) :
    ctx.deref.type = TokType.invalid ↔ ctx.ts.rest = [] := by
  constructor
  · intro h
    cases hr : ctx.ts.rest with
    | nil => rfl
    | cons t r =>
      exfalso
      refine hkind t ?_ ?_
      · rw [hu, hr]
        exact List.mem_append_right _ (List.mem_cons_self _ _)
      · simpa [Context.deref, TokenStream.get, hr] using h
  · intro h
    simp [Context.deref, TokenStream.get, h, Tok.default, Tok.make]

theorem binaryLexeme_token (lexeme : List Char) (hop : lexeme ∈ binaryLexemes) :
    (Tok.make TokType.op lexeme).type ≠ TokType.num ∧
      (Tok.make TokType.op lexeme).op ≠ Op.parenR := by
  simp only [binaryLexemes, List.mem_cons, List.mem_singleton, List.not_mem_nil, or_false] at hop
  rcases hop with rfl | rfl | rfl | rfl | rfl | rfl | rfl | rfl <;> decide

/-- C5: a token sequence (kinds as the lexer emits them, integer literals in
machine range) whose last token is a binary operator `+ - * / < > <= >=` is
rejected: the top parse rule followed by the end-of-input check fails with
`SyntaxErrorEx`, so no tree is returned and nothing is evaluated. -/
theorem trailing_operator_syntax_error (pre : List Tok) (lexeme : List Char)
    (hop : lexeme ∈ binaryLexemes)
    (hkind : ∀ t ∈ pre, t.type ≠ TokType.invalid)
    (hlit : LitsOk pre) :
    parseAll (pre ++ [Tok.make TokType.op lexeme]) = .error Exn.SyntaxErrorEx ∧
      runTokens (pre ++ [Tok.make TokType.op lexeme]) = .error Exn.SyntaxErrorEx := by
  have hlast := binaryLexeme_token lexeme hop
  have hkind2 : ∀ t ∈ pre ++ [Tok.make TokType.op lexeme], t.type ≠ TokType.invalid := by
    intro t ht
    rcases List.mem_append.1 ht with h | h
    · exact hkind t h
    · rw [List.mem_singleton] at h
      subst h
      simp [Tok.make]
  have hlit2 : LitsOk (pre ++ [Tok.make TokType.op lexeme]) := by
    intro t ht hty
    rcases List.mem_append.1 ht with h | h
    · exact hlit t h hty
    · rw [List.mem_singleton] at h
      subst h
      exact absurd hty hlast.1
  unfold parseAll runTokens
  cases hp : parse (pre ++ [Tok.make TokType.op lexeme]) with
  | error x =>
    have := parse_error _ hlit2 x hp
    subst this
    exact ⟨rfl, rfl⟩
  | ok v =>
    obtain ⟨root, ctx⟩ := v
    obtain ⟨used, hu, t, ht, hty⟩ := parse_progress _ _ _ hp
    have hne : ctx.deref.type ≠ TokType.invalid := by
      intro h
      have hnil := (deref_type_invalid_iff _ used ctx hkind2 hu).1 h
      rw [hnil, List.append_nil] at hu
      rw [← hu, List.getLast?_append_of_ne_nil _ (by simp)] at ht
      simp only [List.getLast?_singleton, Option.some.injEq] at ht
      subst ht
      rcases hty with h1 | h1
      · exact hlast.1 h1
      · exact hlast.2 h1
    simp [hne]

/-- C5 at `1 +`, as tokenized by the lexer. -/
theorem trailing_operator_syntax_error_witness :
    ['+'] ∈ binaryLexemes ∧
      parseAll ([Tok.make TokType.num ['1']] ++ [Tok.make TokType.op ['+']])
        = .error Exn.SyntaxErrorEx ∧
      runTokens ([Tok.make TokType.num ['1']] ++ [Tok.make TokType.op ['+']])
        = .error Exn.SyntaxErrorEx :=
  ⟨by decide,
    trailing_operator_syntax_error [Tok.make TokType.num ['1']] ['+'] (by decide)
      (by decide) (by
        intro t ht _
        rw [List.mem_singleton] at ht
        subst ht
        exact ⟨1, rfl⟩)⟩

/-- C10: on a token sequence (kinds as the lexer emits them) for which the top
parse rule returns a tree with tokens left over, the driver fails with
`SyntaxErrorEx` and no value is produced; and whenever the driver accepts a
tree or produces a value, the parser has consumed every token. -/
theorem trailing_input_syntax_error (tokens : List Tok)
    (hkind : ∀ t ∈ tokens, t.type ≠ TokType.invalid) :
    (∀ root ctx, parse tokens = .ok (root, ctx) → ctx.ts.rest ≠ [] →
        parseAll tokens = .error Exn.SyntaxErrorEx ∧
          runTokens tokens = .error Exn.SyntaxErrorEx) ∧
      (∀ root, parseAll tokens = .ok root → parse tokens = .ok (root, Context.start [])) ∧
      (∀ v, runTokens tokens = .ok v →
        ∃ root, parse tokens = .ok (root, Context.start []) ∧ root.eval = .ok v) := by
  refine ⟨?_, ?_, ?_⟩
  · intro root ctx hp hrest
    obtain ⟨used, hu, _⟩ := parse_progress _ _ _ hp
    have hne : ctx.deref.type ≠ TokType.invalid :=
      fun h => hrest ((deref_type_invalid_iff _ used ctx hkind hu).1 h)
    simp [parseAll, runTokens, hp, hne]
  · intro root h
    unfold parseAll at h
    cases hp : parse tokens with
    | error x => simp [hp] at h
    | ok w =>
      obtain ⟨r, ctx⟩ := w
      obtain ⟨used, hu, _⟩ := parse_progress _ _ _ hp
      simp only [hp] at h
      by_cases hty : ctx.deref.type = TokType.invalid
      · have hnil := (deref_type_invalid_iff _ used ctx hkind hu).1 hty
        simp only [hty, ne_eq, not_true_eq_false, ↓reduceIte, Except.ok.injEq] at h
        subst h
        obtain ⟨⟨rest⟩⟩ := ctx
        simp only at hnil
        subst hnil
        rfl
      · simp [hty] at h
  · intro v h
    unfold runTokens at h
    cases hp : parse tokens with
    | error x => simp [hp] at h
    | ok w =>
      obtain ⟨r, ctx⟩ := w
      obtain ⟨used, hu, _⟩ := parse_progress _ _ _ hp
      simp only [hp] at h
      by_cases hty : ctx.deref.type = TokType.invalid
      · have hnil := (deref_type_invalid_iff _ used ctx hkind hu).1 hty
        simp only [hty, ne_eq, not_true_eq_false, ↓reduceIte] at h
        obtain ⟨⟨rest⟩⟩ := ctx
        simp only at hnil
        subst hnil
        exact ⟨r, rfl, h⟩
      · simp [hty] at h

/-- C10 at the lines `1 2` and `1 )`, as tokenized by the lexer. -/
theorem trailing_input_syntax_error_witness :
    (∀ t ∈ (lexer "1 2".toList).result, t.type ≠ TokType.invalid) ∧
      runTokens (lexer "1 2".toList).result = .error Exn.SyntaxErrorEx ∧
      runTokens (lexer "1 )".toList).result = .error Exn.SyntaxErrorEx :=
  ⟨by decide,
    ((trailing_input_syntax_error (lexer "1 2".toList).result (by decide)).1
      _ (Context.start [Tok.make TokType.num ['2']]) rfl (by decide)).2,
    ((trailing_input_syntax_error (lexer "1 )".toList).result (by decide)).1
      _ (Context.start [Tok.make TokType.op [')']]) rfl (by decide)).2⟩

/-! ### Integer literals -/

theorem dropWhile_isspace_digits (ds : List Char) (hd : ∀ c ∈ ds, isdigit c = true) :
    ds.dropWhile isspace = ds := by
  cases ds with
  | nil => rfl
  | cons d ds =>
    have := isdigit_not_space (hd d (List.mem_cons_self _ _))
    simp [List.dropWhile, this]

theorem takeWhile_isdigit_digits (ds : List Char) (hd : ∀ c ∈ ds, isdigit c = true) :
    ds.takeWhile isdigit = ds := by
  induction ds with
  | nil => rfl
  | cons d ds ih =>
    have h1 := hd d (List.mem_cons_self _ _)
    simp [List.takeWhile, h1, ih (fun c hc => hd c (List.mem_cons_of_mem _ hc))]

/-- On a non-empty run of digits whose value fits a `long`, `stol` returns
that value. -/
theorem stol_digits (ds : List Char) (hne : ds ≠ []) (hd : ∀ c ∈ ds, isdigit c = true)
    (hr : (digitsValue ds : Int) ≤ LONG_MAX) :
    stol ds = .ok (digitsValue ds : Int) := by
  have hsign : ¬ (ds.head? = some '-' ∨ ds.head? = some '+') := by
    cases ds with
    | nil => simp
    | cons d ds =>
      have h1 := hd d (List.mem_cons_self _ _)
      simp only [List.head?_cons, Option.some.injEq]
      rintro (rfl | rfl) <;> simp [isdigit] at h1
  have hneg : ¬ ds.head? = some '-' := fun h => hsign (Or.inl h)
  have hmin : LONG_MIN ≤ (digitsValue ds : Int) := by
    unfold LONG_MIN
    omega
  unfold stol
  simp only [dropWhile_isspace_digits ds hd]
  rw [if_neg hsign]
  simp only [takeWhile_isdigit_digits ds hd]
  rw [if_neg hne]
  simp only [if_neg hneg]
  rw [if_pos ⟨hmin, hr⟩]

theorem parse_add_mul (da db dc : List Char) (a b c : Int)
    (ha : stol da = .ok a) (hb : stol db = .ok b) (hc : stol dc = .ok c) :
    parse [Tok.make TokType.num da, Tok.make TokType.op ['+'], Tok.make TokType.num db,
        Tok.make TokType.op ['*'], Tok.make TokType.num dc]
      = .ok (Construct.Expr06 [(Op.invalid, Construct.Expr04
          [(Op.invalid, Construct.Expr03 [(Op.invalid, Construct.Expr01 (Construct.LiteralInt a))]),
           (Op.plus, Construct.Expr03 [(Op.invalid, Construct.Expr01 (Construct.LiteralInt b)),
              (Op.times, Construct.Expr01 (Construct.LiteralInt c))])])],
          Context.start []) := by
  simp [parse, pExprTop, pExpr06, pExpr04, pExpr03, pExprGeneric, pExprGenericLoop, pExpr01,
    AcceptOneOf, pAcceptOp, pAcceptLiteralInt, Context.start, Context.deref, Context.get_str,
    Context.postInc, TokenStream.get, TokenStream.next, Tok.make, get_op_type, ha, hb, hc,
    Tok.default]

theorem lexRest_digits_end (ds : List Char) (hne : ds ≠ [])
    (hds : ∀ d ∈ ds, isdigit d = true) (cur : List Char) (result : List Tok) :
    lexRest ds cur TokType.invalid result = ⟨result ++ [Tok.make TokType.num ds], none⟩ := by
  have h := lexRest_digits_open ds hne hds [] cur result
  rw [List.append_nil] at h
  rw [h, lexRest_nil]
  simp

theorem lexRest_op1_cons (c d : Char) (rest cur : List Char) (tt : TokType)
    (result : List Tok) (hs : isspace c = false) (ho : is_operator [c] = true)
    (h2 : is_operator [c, d] = false) :
    lexRest (c :: d :: rest) cur tt result =
      lexRest (d :: rest) [] TokType.invalid
        ((if tt ≠ TokType.invalid then result ++ [Tok.make tt cur] else result)
          ++ [Tok.make TokType.op [c]]) :=
  lexRest_op1 c (d :: rest) cur tt result hs ho h2

theorem lexer_add_mul (da db dc : List Char)
    (hna : da ≠ []) (hda : ∀ d ∈ da, isdigit d = true)
    (hnb : db ≠ []) (hdb : ∀ d ∈ db, isdigit d = true)
    (hnc : dc ≠ []) (hdc : ∀ d ∈ dc, isdigit d = true) :
    lexer (da ++ [' ', '+', ' '] ++ db ++ [' ', '*', ' '] ++ dc)
      = ⟨[Tok.make TokType.num da, Tok.make TokType.op ['+'], Tok.make TokType.num db,
          Tok.make TokType.op ['*'], Tok.make TokType.num dc], none⟩ := by
  rw [lexer_eq_lexRest]
  simp only [List.append_assoc, List.cons_append, List.nil_append]
  rw [lexRest_digits_open da hna hda,
    lexRest_space ' ' _ _ _ _ (by decide),
    lexRest_op1_cons '+' ' ' _ _ _ _ (by decide) (by decide) (by decide),
    lexRest_space ' ' _ _ _ _ (by decide),
    lexRest_digits_open db hnb hdb,
    lexRest_space ' ' _ _ _ _ (by decide),
    lexRest_op1_cons '*' ' ' _ _ _ _ (by decide) (by decide) (by decide),
    lexRest_space ' ' _ _ _ _ (by decide),
    lexRest_digits_end dc hnc hdc]
  simp

/-! ### Machine arithmetic -/

theorem wrapLong_id (x : Int) (h1 : LONG_MIN ≤ x) (h2 : x ≤ LONG_MAX) : wrapLong x = x := by
  unfold wrapLong
  unfold LONG_MIN at h1
  unfold LONG_MAX at h2
  omega

theorem digitsValue_nonneg (ds : List Char) : (0 : Int) ≤ (digitsValue ds : Int) :=
  Int.ofNat_nonneg _

/-! ### The line `a + b * c` -/

theorem eval_add_mul (a b c : Int) :
    (Construct.Expr06 [(Op.invalid, Construct.Expr04
        [(Op.invalid, Construct.Expr03 [(Op.invalid, Construct.Expr01 (Construct.LiteralInt a))]),
         (Op.plus, Construct.Expr03 [(Op.invalid, Construct.Expr01 (Construct.LiteralInt b)),
            (Op.times, Construct.Expr01 (Construct.LiteralInt c))])])]).eval
      = .ok (EvalValue.long (wrapLong (a + wrapLong (b * c)))) := by
  simp [Construct.eval, evalChain, evalRest, applyOp, EvalValue.toLong]

theorem runLine_of_parse (line : List Char) (tokens : List Tok) (root : Construct)
    (hlex : lexer line = ⟨tokens, none⟩)
    (hparse : parse tokens = .ok (root, Context.start [])) :
    runLine line = root.eval := by
  unfold runLine
  rw [hlex]
  simp only
  unfold runTokens
  rw [hparse]
  rfl

/-- C1 (amended): for digit strings `a`, `b`, `c` in machine range, the line
`a + b * c` is tokenized and parsed with the cursor at end, and its tree
evaluates to `a + (b * c)` in 64-bit `long` arithmetic: multiplication binds
tighter. The value is the integer `a + b * c` whenever that fits a `long`. -/
theorem add_mul_precedence (da db dc : List Char)
    (hna : da ≠ []) (hda : ∀ d ∈ da, isdigit d = true)
    (hra : (digitsValue da : Int) ≤ LONG_MAX)
    (hnb : db ≠ []) (hdb : ∀ d ∈ db, isdigit d = true)
    (hrb : (digitsValue db : Int) ≤ LONG_MAX)
    (hnc : dc ≠ []) (hdc : ∀ d ∈ dc, isdigit d = true)
    (hrc : (digitsValue dc : Int) ≤ LONG_MAX) :
    (lexer (da ++ [' ', '+', ' '] ++ db ++ [' ', '*', ' '] ++ dc)).exn = none ∧
      (∃ root,
        parse (lexer (da ++ [' ', '+', ' '] ++ db ++ [' ', '*', ' '] ++ dc)).result
            = .ok (root, Context.start []) ∧
          root.eval = .ok (EvalValue.long
            (wrapLong (digitsValue da + wrapLong (digitsValue db * digitsValue dc))))) ∧
      runLine (da ++ [' ', '+', ' '] ++ db ++ [' ', '*', ' '] ++ dc)
        = .ok (EvalValue.long
            (wrapLong (digitsValue da + wrapLong (digitsValue db * digitsValue dc)))) ∧
      ((digitsValue da + digitsValue db * digitsValue dc : Int) ≤ LONG_MAX →
        runLine (da ++ [' ', '+', ' '] ++ db ++ [' ', '*', ' '] ++ dc)
          = .ok (EvalValue.long (digitsValue da + digitsValue db * digitsValue dc))) := by
  have hlex := lexer_add_mul da db dc hna hda hnb hdb hnc hdc
  have hparse := parse_add_mul da db dc _ _ _ (stol_digits da hna hda hra)
    (stol_digits db hnb hdb hrb) (stol_digits dc hnc hdc hrc)
  have hrun := runLine_of_parse _ _ _ hlex hparse
  rw [eval_add_mul] at hrun
  refine ⟨by rw [hlex], ⟨_, by rw [hlex]; exact hparse, eval_add_mul _ _ _⟩, hrun, ?_⟩
  intro hfit
  rw [hrun]
  have h0a := digitsValue_nonneg da
  have h0b := digitsValue_nonneg db
  have h0c := digitsValue_nonneg dc
  have hbc : (0 : Int) ≤ digitsValue db * digitsValue dc := Int.mul_nonneg h0b h0c
  have hmin : LONG_MIN ≤ 0 := by decide
  rw [wrapLong_id (digitsValue db * digitsValue dc) (by omega) (by omega),
    wrapLong_id _ (by omega) hfit]

/-- C1 at `1 + 2 * 3`: the value is 7. -/
theorem add_mul_precedence_witness :
    runLine "1 + 2 * 3".toList = .ok (EvalValue.long 7) :=
  (add_mul_precedence ['1'] ['2'] ['3'] (by decide) (by decide) (by decide) (by decide)
    (by decide) (by decide) (by decide) (by decide) (by decide)).2.2.2 (by decide)

/-- C1 as stated fails when the sum leaves the machine range: the line
`9223372036854775807 + 1 * 1` evaluates to `-9223372036854775808`, not to the
integer `9223372036854775807 + 1 * 1`. -/
theorem add_mul_overflow :
    runLine "9223372036854775807 + 1 * 1".toList
        = .ok (EvalValue.long (-9223372036854775808)) ∧
      runLine "9223372036854775807 + 1 * 1".toList
        ≠ .ok (EvalValue.long (9223372036854775807 + 1 * 1)) := by
  have h : runLine "9223372036854775807 + 1 * 1".toList
      = .ok (EvalValue.long (-9223372036854775808)) := rfl
  refine ⟨h, ?_⟩
  rw [h]
  intro h2
  injection h2 with h3
  injection h3 with h4
  exact absurd h4 (by decide)

theorem lexRest_op_single (c : Char) (rest cur : List Char) (tt : TokType)
    (result : List Tok) (hc : c ∈ ['+', '-', '*', '/', '(', ')']) :
    lexRest (c :: rest) cur tt result =
      lexRest rest [] TokType.invalid
        ((if tt ≠ TokType.invalid then result ++ [Tok.make tt cur] else result)
          ++ [Tok.make TokType.op [c]]) := by
  have hs : isspace c = false := by
    simp only [List.mem_cons, List.mem_singleton, List.not_mem_nil, or_false] at hc
    rcases hc with rfl | rfl | rfl | rfl | rfl | rfl <;> decide
  have ho : is_operator [c] = true := by
    simp only [List.mem_cons, List.mem_singleton, List.not_mem_nil, or_false] at hc
    rcases hc with rfl | rfl | rfl | rfl | rfl | rfl <;> decide
  have h2 : (decide (0 < rest.length) && is_operator (c :: rest.take 1)) = false := by
    cases rest with
    | nil => simp
    | cons x r =>
      have : is_operator [c, x] = false := by
        rw [Bool.eq_false_iff]
        intro hp
        rw [is_operator_pair] at hp
        simp only [List.mem_cons, List.mem_singleton, List.not_mem_nil, or_false] at hc
        rcases hp.1 with rfl | rfl <;> simp at hc
      simp [this]
  rw [lexRest]
  simp only [hs, ho, h2, Bool.or_true, Bool.not_false, ↓reduceIte, Bool.false_eq_true]

/-! ### The line `(a + b) * c` -/

theorem lexer_paren_add_mul (da db dc : List Char)
    (hna : da ≠ []) (hda : ∀ d ∈ da, isdigit d = true)
    (hnb : db ≠ []) (hdb : ∀ d ∈ db, isdigit d = true)
    (hnc : dc ≠ []) (hdc : ∀ d ∈ dc, isdigit d = true) :
    lexer (['('] ++ da ++ [' ', '+', ' '] ++ db ++ [')', ' ', '*', ' '] ++ dc)
      = ⟨[Tok.make TokType.op ['('], Tok.make TokType.num da, Tok.make TokType.op ['+'],
          Tok.make TokType.num db, Tok.make TokType.op [')'], Tok.make TokType.op ['*'],
          Tok.make TokType.num dc], none⟩ := by
  rw [lexer_eq_lexRest]
  simp only [List.append_assoc, List.cons_append, List.nil_append]
  rw [lexRest_op_single '(' _ _ _ _ (by decide),
    lexRest_digits_open da hna hda,
    lexRest_space ' ' _ _ _ _ (by decide),
    lexRest_op_single '+' _ _ _ _ (by decide),
    lexRest_space ' ' _ _ _ _ (by decide),
    lexRest_digits_open db hnb hdb,
    lexRest_op_single ')' _ _ _ _ (by decide),
    lexRest_space ' ' _ _ _ _ (by decide),
    lexRest_op_single '*' _ _ _ _ (by decide),
    lexRest_space ' ' _ _ _ _ (by decide),
    lexRest_digits_end dc hnc hdc]
  simp

theorem parse_paren_add_mul (da db dc : List Char) (a b c : Int)
    (ha : stol da = .ok a) (hb : stol db = .ok b) (hc : stol dc = .ok c) :
    parse [Tok.make TokType.op ['('], Tok.make TokType.num da, Tok.make TokType.op ['+'],
        Tok.make TokType.num db, Tok.make TokType.op [')'], Tok.make TokType.op ['*'],
        Tok.make TokType.num dc]
      = .ok (Construct.Expr06 [(Op.invalid, Construct.Expr04 [(Op.invalid, Construct.Expr03
          [(Op.invalid, Construct.Expr01 (Construct.Expr06 [(Op.invalid, Construct.Expr04
              [(Op.invalid, Construct.Expr03
                  [(Op.invalid, Construct.Expr01 (Construct.LiteralInt a))]),
               (Op.plus, Construct.Expr03
                  [(Op.invalid, Construct.Expr01 (Construct.LiteralInt b))])])])),
           (Op.times, Construct.Expr01 (Construct.LiteralInt c))])])],
          Context.start []) := by
  simp [parse, pExprTop, pExpr06, pExpr04, pExpr03, pExprGeneric, pExprGenericLoop, pExpr01,
    AcceptOneOf, pAcceptOp, pAcceptLiteralInt, pExpectOp, Context.start, Context.deref,
    Context.get_str, Context.postInc, TokenStream.get, TokenStream.next, Tok.make, get_op_type,
    ha, hb, hc, Tok.default]

theorem eval_paren_add_mul (a b c : Int) :
    (Construct.Expr06 [(Op.invalid, Construct.Expr04 [(Op.invalid, Construct.Expr03
        [(Op.invalid, Construct.Expr01 (Construct.Expr06 [(Op.invalid, Construct.Expr04
            [(Op.invalid, Construct.Expr03
                [(Op.invalid, Construct.Expr01 (Construct.LiteralInt a))]),
             (Op.plus, Construct.Expr03
                [(Op.invalid, Construct.Expr01 (Construct.LiteralInt b))])])])),
         (Op.times, Construct.Expr01 (Construct.LiteralInt c))])])]).eval
      = .ok (EvalValue.long (wrapLong (wrapLong (a + b) * c))) := by
  simp [Construct.eval, evalChain, evalRest, applyOp, EvalValue.toLong]

/-- C2 (amended): for digit strings `a`, `b`, `c` in machine range, the line
`(a + b) * c` is tokenized and parsed with the cursor at end, and its tree
evaluates to `(a + b) * c` in 64-bit `long` arithmetic: the parentheses
override precedence. The value is the integer `(a + b) * c` whenever `a + b`
and `(a + b) * c` fit a `long`. -/
theorem paren_overrides_precedence (da db dc : List Char)
    (hna : da ≠ []) (hda : ∀ d ∈ da, isdigit d = true)
    (hra : (digitsValue da : Int) ≤ LONG_MAX)
    (hnb : db ≠ []) (hdb : ∀ d ∈ db, isdigit d = true)
    (hrb : (digitsValue db : Int) ≤ LONG_MAX)
    (hnc : dc ≠ []) (hdc : ∀ d ∈ dc, isdigit d = true)
    (hrc : (digitsValue dc : Int) ≤ LONG_MAX) :
    (lexer (['('] ++ da ++ [' ', '+', ' '] ++ db ++ [')', ' ', '*', ' '] ++ dc)).exn = none ∧
      (∃ root,
        parse (lexer (['('] ++ da ++ [' ', '+', ' '] ++ db ++ [')', ' ', '*', ' '] ++ dc)).result
            = .ok (root, Context.start []) ∧
          root.eval = .ok (EvalValue.long
            (wrapLong (wrapLong (digitsValue da + digitsValue db) * digitsValue dc)))) ∧
      runLine (['('] ++ da ++ [' ', '+', ' '] ++ db ++ [')', ' ', '*', ' '] ++ dc)
        = .ok (EvalValue.long
            (wrapLong (wrapLong (digitsValue da + digitsValue db) * digitsValue dc))) ∧
      ((digitsValue da + digitsValue db : Int) ≤ LONG_MAX →
        ((digitsValue da + digitsValue db) * digitsValue dc : Int) ≤ LONG_MAX →
        runLine (['('] ++ da ++ [' ', '+', ' '] ++ db ++ [')', ' ', '*', ' '] ++ dc)
          = .ok (EvalValue.long ((digitsValue da + digitsValue db) * digitsValue dc))) := by
  have hlex := lexer_paren_add_mul da db dc hna hda hnb hdb hnc hdc
  have hparse := parse_paren_add_mul da db dc _ _ _ (stol_digits da hna hda hra)
    (stol_digits db hnb hdb hrb) (stol_digits dc hnc hdc hrc)
  have hrun := runLine_of_parse _ _ _ hlex hparse
  rw [eval_paren_add_mul] at hrun
  refine ⟨by rw [hlex], ⟨_, by rw [hlex]; exact hparse, eval_paren_add_mul _ _ _⟩, hrun, ?_⟩
  intro hfit1 hfit2
  rw [hrun]
  have h0a := digitsValue_nonneg da
  have h0b := digitsValue_nonneg db
  have h0c := digitsValue_nonneg dc
  have hab : (0 : Int) ≤ digitsValue da + digitsValue db := by omega
  have habc : (0 : Int) ≤ (digitsValue da + digitsValue db) * digitsValue dc :=
    Int.mul_nonneg hab h0c
  have hmin : LONG_MIN ≤ 0 := by decide
  rw [wrapLong_id (digitsValue da + digitsValue db) (by omega) hfit1,
    wrapLong_id _ (by omega) hfit2]

/-- C2 at `(1 + 2) * 3`: the value is 9. -/
theorem paren_overrides_precedence_witness :
    runLine "(1 + 2) * 3".toList = .ok (EvalValue.long 9) :=
  (paren_overrides_precedence ['1'] ['2'] ['3'] (by decide) (by decide) (by decide)
    (by decide) (by decide) (by decide) (by decide) (by decide) (by decide)).2.2.2
    (by decide) (by decide)

/-- C2 as stated fails when the product leaves the machine range: the line
`(4611686018427387904 + 0) * 2` evaluates to `-9223372036854775808`, not to
the integer `(4611686018427387904 + 0) * 2`. -/
theorem paren_mul_overflow :
    runLine "(4611686018427387904 + 0) * 2".toList
        = .ok (EvalValue.long (-9223372036854775808)) ∧
      runLine "(4611686018427387904 + 0) * 2".toList
        ≠ .ok (EvalValue.long ((4611686018427387904 + 0) * 2)) := by
  have h : runLine "(4611686018427387904 + 0) * 2".toList
      = .ok (EvalValue.long (-9223372036854775808)) := rfl
  refine ⟨h, ?_⟩
  rw [h]
  intro h2
  injection h2 with h3
  injection h3 with h4
  exact absurd h4 (by decide)

/-! ### The line `n / 0` -/

theorem lexer_div_zero (dn : List Char) (hn : dn ≠ []) (hd : ∀ d ∈ dn, isdigit d = true) :
    lexer (dn ++ [' ', '/', ' ', '0'])
      = ⟨[Tok.make TokType.num dn, Tok.make TokType.op ['/'], Tok.make TokType.num ['0']],
          none⟩ := by
  rw [lexer_eq_lexRest]
  rw [lexRest_digits_open dn hn hd,
    lexRest_space ' ' _ _ _ _ (by decide),
    lexRest_op_single '/' _ _ _ _ (by decide),
    lexRest_space ' ' _ _ _ _ (by decide),
    lexRest_digits_end ['0'] (by decide) (by decide)]
  simp

/-- C4 (amended): for a digit string `n` in machine range, the line `n / 0` is
tokenized and parsed without error, with the cursor at end, so the driver
accepts the tree; evaluating the tree fails with `DivisionByZeroEx`, and so
does the whole run, which produces no value. -/
theorem division_by_zero_at_eval (dn : List Char)
    (hn : dn ≠ []) (hd : ∀ d ∈ dn, isdigit d = true)
    (hr : (digitsValue dn : Int) ≤ LONG_MAX) :
    (lexer (dn ++ [' ', '/', ' ', '0'])).exn = none ∧
      (∃ root,
        parse (lexer (dn ++ [' ', '/', ' ', '0'])).result = .ok (root, Context.start []) ∧
          parseAll (lexer (dn ++ [' ', '/', ' ', '0'])).result = .ok root ∧
          root.eval = .error Exn.DivisionByZeroEx) ∧
      runLine (dn ++ [' ', '/', ' ', '0']) = .error Exn.DivisionByZeroEx := by
  have hlex := lexer_div_zero dn hn hd
  have hs := stol_digits dn hn hd hr
  have h0 : stol ['0'] = .ok 0 := rfl
  have hparse : parse [Tok.make TokType.num dn, Tok.make TokType.op ['/'],
      Tok.make TokType.num ['0']]
      = .ok (Construct.Expr06 [(Op.invalid, Construct.Expr04 [(Op.invalid, Construct.Expr03
          [(Op.invalid, Construct.Expr01 (Construct.LiteralInt (digitsValue dn))),
           (Op.div, Construct.Expr01 (Construct.LiteralInt 0))])])], Context.start []) := by
    simp [parse, pExprTop, pExpr06, pExpr04, pExpr03, pExprGeneric, pExprGenericLoop, pExpr01,
      AcceptOneOf, pAcceptOp, pAcceptLiteralInt, Context.start, Context.deref,
      Context.get_str, Context.postInc, TokenStream.get, TokenStream.next, Tok.make,
      get_op_type, hs, h0, Tok.default]
  have heval : (Construct.Expr06 [(Op.invalid, Construct.Expr04 [(Op.invalid, Construct.Expr03
          [(Op.invalid, Construct.Expr01 (Construct.LiteralInt (digitsValue dn))),
           (Op.div, Construct.Expr01 (Construct.LiteralInt 0))])])]).eval
      = .error Exn.DivisionByZeroEx := by
    simp [Construct.eval, evalChain, evalRest, applyOp, EvalValue.toLong]
  have hrun := runLine_of_parse _ _ _ hlex hparse
  rw [heval] at hrun
  refine ⟨by rw [hlex], ⟨_, by rw [hlex]; exact hparse, ?_, heval⟩, hrun⟩
  rw [hlex]
  simp only
  unfold parseAll
  rw [hparse]
  rfl

/-- C4 at `10 / 0`. -/
theorem division_by_zero_at_eval_witness :
    runLine "10 / 0".toList = .error Exn.DivisionByZeroEx :=
  (division_by_zero_at_eval ['1', '0'] (by decide) (by decide) (by decide)).2.2

/-- C4 as stated fails for a literal beyond the machine range: on the line
`99999999999999999999 / 0` the parse step itself fails, in `stol`, with
`std::out_of_range`; no tree is returned and the run does not end in
`DivisionByZeroEx`. -/
theorem division_literal_out_of_range :
    (lexer "99999999999999999999 / 0".toList).exn = none ∧
      parse (lexer "99999999999999999999 / 0".toList).result = .error Exn.StdOutOfRange ∧
      runLine "99999999999999999999 / 0".toList = .error Exn.StdOutOfRange :=
  ⟨rfl, rfl, rfl⟩

/-! ### Relational operators -/

theorem relational_token (lexeme : List Char) (h : lexeme ∈ relationalLexemes) :
    Tok.make TokType.op lexeme = ⟨TokType.op, lexeme, Op.invalid⟩ := by
  simp only [relationalLexemes, List.mem_cons, List.mem_singleton, List.not_mem_nil,
    or_false] at h
  rcases h with rfl | rfl | rfl | rfl <;> rfl

theorem lexRest_relational (lexeme : List Char) (h : lexeme ∈ relationalLexemes)
    (x : Char) (rest cur : List Char) (tt : TokType) (result : List Tok)
    (hx2 : x ≠ '=') :
    lexRest (lexeme ++ x :: rest) cur tt result =
      lexRest (x :: rest) [] TokType.invalid
        ((if tt ≠ TokType.invalid then result ++ [Tok.make tt cur] else result)
          ++ [Tok.make TokType.op lexeme]) := by
  have hp : ∀ c, is_operator [c, x] = false := by
    intro c
    rw [Bool.eq_false_iff]
    intro hp
    exact hx2 ((is_operator_pair c x).1 hp).2
  simp only [relationalLexemes, List.mem_cons, List.mem_singleton, List.not_mem_nil,
    or_false] at h
  rcases h with rfl | rfl | rfl | rfl
  · exact lexRest_op1_cons '<' x rest cur tt result (by decide) (by decide) (hp _)
  · exact lexRest_op1_cons '>' x rest cur tt result (by decide) (by decide) (hp _)
  · exact lexRest_op2 '<' '=' (x :: rest) cur tt result (by decide) (by decide) (by decide)
  · exact lexRest_op2 '>' '=' (x :: rest) cur tt result (by decide) (by decide) (by decide)

/-- For an arithmetic lexeme `+ - * /` between two digit strings the lexer
yields three tokens and the operator token carries the matching identity. -/
theorem lexer_arith_identity (da db : List Char) (c : Char)
    (hna : da ≠ []) (hda : ∀ d ∈ da, isdigit d = true)
    (hnb : db ≠ []) (hdb : ∀ d ∈ db, isdigit d = true)
    (hc : c ∈ ['+', '-', '*', '/']) :
    lexer (da ++ [c] ++ db)
        = ⟨[Tok.make TokType.num da, Tok.make TokType.op [c], Tok.make TokType.num db],
            none⟩ ∧
      (Tok.make TokType.op ['+']).op = Op.plus ∧ (Tok.make TokType.op ['-']).op = Op.minus ∧
      (Tok.make TokType.op ['*']).op = Op.times ∧ (Tok.make TokType.op ['/']).op = Op.div := by
  refine ⟨?_, rfl, rfl, rfl, rfl⟩
  have hc2 : c ∈ ['+', '-', '*', '/', '(', ')'] := by
    simp only [List.mem_cons, List.mem_singleton, List.not_mem_nil, or_false] at hc ⊢
    tauto
  rw [lexer_eq_lexRest]
  simp only [List.append_assoc, List.cons_append, List.nil_append]
  rw [lexRest_digits_open da hna hda, lexRest_op_single c _ _ _ _ hc2,
    lexRest_digits_end db hnb hdb]
  simp

/-- C9 on the code: for digit strings `a`, `b` and a relational lexeme
`< > <= >=`, the text `a op b` is tokenized to three tokens with the right
kinds and texts, but the operator token carries the identity `Op.invalid`:
`get_op_type` has no case for `<` or `>`. -/
theorem lexer_relational_identity (da db lexeme : List Char)
    (hna : da ≠ []) (hda : ∀ d ∈ da, isdigit d = true)
    (hnb : db ≠ []) (hdb : ∀ d ∈ db, isdigit d = true)
    (hop : lexeme ∈ relationalLexemes) :
    lexer (da ++ lexeme ++ db)
      = ⟨[Tok.make TokType.num da, ⟨TokType.op, lexeme, Op.invalid⟩,
          Tok.make TokType.num db], none⟩ := by
  obtain ⟨d, db1, rfl⟩ : ∃ d db1, db = d :: db1 := by
    cases db with
    | nil => exact absurd rfl hnb
    | cons d db1 => exact ⟨d, db1, rfl⟩
  have hd := hdb d (List.mem_cons_self _ _)
  have hne : d ≠ '=' := by
    rintro rfl
    simp [isdigit] at hd
  rw [lexer_eq_lexRest, List.append_assoc, lexRest_digits_open da hna hda,
    lexRest_relational lexeme hop d db1 _ _ _ hne,
    lexRest_digits_end (d :: db1) hnb hdb, relational_token lexeme hop]
  simp

/-- C9 on the code at `1<=2`: the operator token `<=` has identity
`Op.invalid`, not `Op.le`. -/
theorem lexer_relational_identity_witness :
    lexer "1<=2".toList
      = ⟨[Tok.make TokType.num ['1'], ⟨TokType.op, ['<', '='], Op.invalid⟩,
          Tok.make TokType.num ['2']], none⟩ :=
  lexer_relational_identity ['1'] ['2'] ['<', '='] (by decide) (by decide) (by decide)
    (by decide) (by decide)

/-- C3 on the code: for digit strings `a` (in machine range), `b` and a
relational lexeme `< > <= >=`, the line `a op b` is rejected with
`SyntaxErrorEx`: the operator token carries `Op.invalid`, the top rule stops in
front of it and the end-of-input check fails. No value 0 or 1 is produced. -/
theorem relational_line_rejected (da db lexeme : List Char)
    (hna : da ≠ []) (hda : ∀ d ∈ da, isdigit d = true)
    (hra : (digitsValue da : Int) ≤ LONG_MAX)
    (hnb : db ≠ []) (hdb : ∀ d ∈ db, isdigit d = true)
    (hop : lexeme ∈ relationalLexemes) :
    runLine (da ++ [' '] ++ lexeme ++ [' '] ++ db) = .error Exn.SyntaxErrorEx := by
  have hlex : lexer (da ++ [' '] ++ lexeme ++ [' '] ++ db)
      = ⟨[Tok.make TokType.num da, ⟨TokType.op, lexeme, Op.invalid⟩,
          Tok.make TokType.num db], none⟩ := by
    rw [lexer_eq_lexRest]
    simp only [List.append_assoc, List.cons_append, List.nil_append]
    rw [lexRest_digits_open da hna hda,
      lexRest_space ' ' _ _ _ _ (by decide),
      lexRest_relational lexeme hop ' ' db _ _ _ (by decide),
      lexRest_space ' ' _ _ _ _ (by decide),
      lexRest_digits_end db hnb hdb, relational_token lexeme hop]
    simp
  have hs := stol_digits da hna hda hra
  unfold runLine
  rw [hlex]
  simp [runTokens, parse, pExprTop, pExpr06, pExpr04, pExpr03, pExprGeneric,
    pExprGenericLoop, pExpr01, AcceptOneOf, pAcceptOp, pAcceptLiteralInt, Context.start,
    Context.deref, Context.get_str, Context.postInc, TokenStream.get, TokenStream.next,
    Tok.make, hs]

/-- C3 on the code at `1 < 2` and `2 < 1`: both lines are rejected. -/
theorem relational_line_rejected_witness :
    runLine "1 < 2".toList = .error Exn.SyntaxErrorEx ∧
      runLine "2 < 1".toList = .error Exn.SyntaxErrorEx :=
  ⟨relational_line_rejected ['1'] ['2'] ['<'] (by decide) (by decide) (by decide)
      (by decide) (by decide) (by decide),
    relational_line_rejected ['2'] ['1'] ['<'] (by decide) (by decide) (by decide)
      (by decide) (by decide) (by decide)⟩

/-! ### A digit-started token followed by a letter -/

/-- One iteration of the scan in front of a known next character `y`: it
fails, or it goes on at `y`, or it consumes `y` as the second character of an
operator. What lies after `y` plays no part. -/
theorem lexRest_step (x y : Char) (cur : List Char) (tt : TokType) (result : List Tok) :
    (∃ e, ∀ R, lexRest (x :: y :: R) cur tt result = ⟨result, some e⟩) ∨
      (∃ cur1 tt1 result1, (tt1 ≠ TokType.invalid → cur1 ≠ []) ∧
        ∀ R, lexRest (x :: y :: R) cur tt result = lexRest (y :: R) cur1 tt1 result1) ∨
      (is_operator [x, y] = true ∧
        ∃ result1, ∀ R, lexRest (x :: y :: R) cur tt result
          = lexRest R [] TokType.invalid result1) := by
  by_cases h1 : (isspace x || is_operator [x]) = true
  · by_cases h2 : isspace x = true
    · right; left
      exact ⟨[], TokType.invalid, (if tt ≠ TokType.invalid then result ++ [Tok.make tt cur] else result), by simp,
        fun R => lexRest_space x (y :: R) cur tt result h2⟩
    · have hs : isspace x = false := by simpa using h2
      have ho : is_operator [x] = true := by simpa [hs] using h1
      by_cases h3 : is_operator [x, y] = true
      · right; right
        exact ⟨h3, (if tt ≠ TokType.invalid then result ++ [Tok.make tt cur] else result) ++ [Tok.make TokType.op [x, y]],
          fun R => lexRest_op2 x y R cur tt result hs ho h3⟩
      · right; left
        have h3f : is_operator [x, y] = false := by simpa using h3
        exact ⟨[], TokType.invalid, (if tt ≠ TokType.invalid then result ++ [Tok.make tt cur] else result) ++ [Tok.make TokType.op [x]], by simp,
          fun R => lexRest_op1 x (y :: R) cur tt result hs ho h3f⟩
  · by_cases h2 : (isalnum x || decide (x = '_')) = true
    · by_cases h3 : tt = TokType.invalid
      · right; left
        refine ⟨[x], (if isdigit x = true then TokType.num else TokType.id), result,
          by simp, fun R => ?_⟩
        rw [lexRest]
        simp only [h1, h2, h3, ↓reduceIte, Bool.false_eq_true]
      · by_cases h4 : tt = TokType.num
        · by_cases h5 : isdigit x = true
          · right; left
            refine ⟨cur ++ [x], tt, result, by simp, fun R => ?_⟩
            rw [lexRest]
            simp [h1, h2, h3, h4, h5]
          · left
            refine ⟨Exn.InvalidTokenEx (cur ++ [x]), fun R => ?_⟩
            rw [lexRest]
            simp [h1, h2, h3, h4, h5]
        · right; left
          refine ⟨cur ++ [x], tt, result, by simp, fun R => ?_⟩
          rw [lexRest]
          simp [h1, h2, h3, h4]
    · by_cases h3 : tt = TokType.invalid
      · right; left
        refine ⟨[x], TokType.unknown, result, by simp, fun R => ?_⟩
        rw [lexRest]
        simp [h1, h2, h3]
      · left
        refine ⟨Exn.InvalidTokenEx (cur ++ [x]), fun R => ?_⟩
        rw [lexRest]
        simp [h1, h2, h3]

theorem letter_classes {c : Char} (hc : isalpha c = true ∨ c = '_') :
    isspace c = false ∧ is_operator [c] = false ∧ isdigit c = false ∧
      (isalnum c || decide (c = '_')) = true := by
  rcases hc with h | rfl
  · refine ⟨?_, ?_, ?_, by simp [isalnum, h]⟩
    · simp only [isalpha, Bool.or_eq_true, Bool.and_eq_true, decide_eq_true_eq] at h
      simp only [isspace, Bool.or_eq_false_iff, beq_eq_false_iff_ne, Bool.and_eq_false_iff,
        decide_eq_false_iff_not]
      omega
    · rw [Bool.eq_false_iff]
      intro ho
      rw [is_operator_single] at ho
      rcases ho with rfl | rfl | rfl | rfl | rfl | rfl | rfl | rfl <;> simp [isalpha] at h
    · simp only [isalpha, Bool.or_eq_true, Bool.and_eq_true, decide_eq_true_eq] at h
      simp only [isdigit, Bool.and_eq_false_iff, decide_eq_false_iff_not]
      omega
  · exact ⟨by decide, by decide, by decide, by decide⟩

theorem lexRest_num_letter (c : Char) (rest cur : List Char) (result : List Tok)
    (hc : isalpha c = true ∨ c = '_') :
    lexRest (c :: rest) cur TokType.num result
      = ⟨result, some (Exn.InvalidTokenEx (cur ++ [c]))⟩ := by
  obtain ⟨h1, h2, h3, h4⟩ := letter_classes hc
  rw [lexRest]
  simp [h1, h2, h3, h4]

theorem lexRest_digits_other (ds : List Char) (hds : ∀ d ∈ ds, isdigit d = true)
    (tt : TokType) (h1 : tt ≠ TokType.invalid) (h2 : tt ≠ TokType.num) :
    ∀ (rest cur : List Char) (result : List Tok),
      lexRest (ds ++ rest) cur tt result = lexRest rest (cur ++ ds) tt result := by
  induction ds with
  | nil => intro rest cur result; simp
  | cons d ds ih =>
    intro rest cur result
    have hd : isdigit d = true := hds d (List.mem_cons_self _ _)
    rw [List.cons_append, lexRest]
    simp only [isdigit_not_space hd, isdigit_not_operator hd, isdigit_isalnum hd,
      Bool.or_self, Bool.false_eq_true, ↓reduceIte, Bool.true_or, h1, h2]
    rw [ih (fun x hx => hds x (List.mem_cons_of_mem _ hx))]
    simp

theorem lexRest_digit_letter (ds rest : List Char) (c : Char) (toks : List Tok)
    (hne : ds ≠ []) (hds : ∀ d ∈ ds, isdigit d = true)
    (hc : isalpha c = true ∨ c = '_') :
    ∀ (n : Nat) (pre : List Char), pre.length = n →
      ∀ (cur : List Char) (tt : TokType) (result : List Tok),
        (tt ≠ TokType.invalid → cur ≠ []) →
        lexRest (pre ++ ds) cur tt result = ⟨toks ++ [Tok.make TokType.num ds], none⟩ →
        lexRest (pre ++ ds ++ c :: rest) cur tt result
          = ⟨toks, some (Exn.InvalidTokenEx (ds ++ [c]))⟩ := by
  intro n
  induction n using Nat.strong_induction_on with
  | _ n ih =>
    intro pre hlen cur tt result hcur h
    cases pre with
    | nil =>
      rw [List.nil_append] at h ⊢
      by_cases h1 : tt = TokType.invalid
      · subst h1
        rw [lexRest_digits_end ds hne hds] at h
        rw [lexRest_digits_open ds hne hds, lexRest_num_letter c rest ds result hc]
        have e := congrArg LexOut.result h
        simp only at e
        rw [List.append_left_inj] at e
        rw [e]
      · exfalso
        by_cases h2 : tt = TokType.num
        · subst h2
          have h3 := lexRest_digits_cont ds hds [] cur result
          rw [List.append_nil] at h3
          rw [h3, lexRest_nil] at h
          simp only [ne_eq, h1, not_false_eq_true, ↓reduceIte, LexOut.mk.injEq, and_true] at h
          have e := (List.append_inj' h rfl).2
          simp only [Tok.make, List.cons.injEq, Tok.mk.injEq, and_true, true_and] at e
          have e2 : cur ++ ds = [] ++ ds := by simpa using e.1
          exact hcur h1 (List.append_cancel_right e2)
        · have h3 := lexRest_digits_other ds hds tt h1 h2 [] cur result
          rw [List.append_nil] at h3
          rw [h3, lexRest_nil] at h
          simp only [ne_eq, h1, not_false_eq_true, ↓reduceIte, LexOut.mk.injEq, and_true] at h
          have e := (List.append_inj' h rfl).2
          simp only [Tok.make, List.cons.injEq, Tok.mk.injEq, and_true] at e
          exact h2 e.1
    | cons x pre1 =>
      obtain ⟨y, R1, hR, hpre1⟩ : ∃ y R1, pre1 ++ ds = y :: R1 ∧
          (pre1 = [] ∧ isdigit y = true ∨ ∃ pre2, pre1 = y :: pre2 ∧ R1 = pre2 ++ ds) := by
        cases pre1 with
        | nil =>
          cases ds with
          | nil => exact absurd rfl hne
          | cons d ds1 =>
            exact ⟨d, ds1, rfl, Or.inl ⟨rfl, hds d (List.mem_cons_self _ _)⟩⟩
        | cons y pre2 => exact ⟨y, pre2 ++ ds, rfl, Or.inr ⟨pre2, rfl, rfl⟩⟩
      have hR2 : pre1 ++ ds ++ c :: rest = y :: (R1 ++ c :: rest) := by
        rw [hR]
        rfl
      rw [List.cons_append] at h
      rw [List.cons_append, List.cons_append, hR2]
      rw [hR] at h
      rcases lexRest_step x y cur tt result with ⟨e, he⟩ | ⟨cur1, tt1, result1, hc1, hs⟩ |
          ⟨hop, result1, hs⟩
      · rw [he] at h
        simp at h
      · rw [hs] at h ⊢
        rw [← hR] at h
        rw [← hR2]
        exact ih pre1.length (by simp at hlen; omega) pre1 rfl cur1 tt1 result1 hc1 h
      · rw [hs] at h ⊢
        rcases hpre1 with ⟨_, hy⟩ | ⟨pre2, hp2, hR1⟩
        · rw [isdigit_not_pair x y hy] at hop
          simp at hop
        · subst hp2
          subst hR1
          exact ih pre2.length (by simp at hlen; omega) pre2 rfl [] TokType.invalid result1
            (by simp) h

/-- C6: when a run of digits `ds` that starts a token (the line cut after the
run is tokenized with the run as a `num` token of its own) is immediately
followed by a letter or `_`, the lexer fails with `InvalidTokenEx`; the text
carried is the slice from the token's start through the offending character,
and the tokens emitted before are left in `result`. -/
theorem digit_then_letter_invalid (pre ds rest : List Char) (c : Char) (toks : List Tok)
    (hne : ds ≠ []) (hds : ∀ d ∈ ds, isdigit d = true)
    (hc : isalpha c = true ∨ c = '_')
    (hstart : lexer (pre ++ ds) = ⟨toks ++ [Tok.make TokType.num ds], none⟩) :
    lexer (pre ++ ds ++ c :: rest) = ⟨toks, some (Exn.InvalidTokenEx (ds ++ [c]))⟩ := by
  rw [lexer_eq_lexRest] at hstart ⊢
  exact lexRest_digit_letter ds rest c toks hne hds hc pre.length pre rfl [] TokType.invalid []
    (by simp) hstart

/-- C6 at the lines `1a` and `2+13_x`. -/
theorem digit_then_letter_invalid_witness :
    lexer "1a".toList = ⟨[], some (Exn.InvalidTokenEx "1a".toList)⟩ ∧
      lexer "2+13_x".toList
        = ⟨[Tok.make TokType.num ['2'], Tok.make TokType.op ['+']],
            some (Exn.InvalidTokenEx "13_".toList)⟩ :=
  ⟨digit_then_letter_invalid [] ['1'] [] 'a' [] (by decide) (by decide) (by decide) rfl,
    digit_then_letter_invalid ['2', '+'] ['1', '3'] ['x'] '_'
      [Tok.make TokType.num ['2'], Tok.make TokType.op ['+']]
      (by decide) (by decide) (by decide) rfl⟩

/-! ### The token cursor -/

/-- C11: over a token vector `ts`, at a position `p` with `p ≤ |ts|`, `get`
returns `ts[p]` when `p < |ts|` and the default token, of kind `invalid`, when
`p = |ts|`; `next` moves to `p + 1` when `p < |ts|` and stays at `|ts|`
otherwise. The position stays within `0..|ts|`. Neither can fail, and `get`
returns a token only, so it leaves the cursor as it is. -/
theorem cursor_contract (ts : List Tok) (p : Nat) (hp : p ≤ ts.length) :
    (TokenStream.atPos ts p).position ts = p ∧
      (TokenStream.atPos ts p).get = (if h : p < ts.length then ts[p] else Tok.default) ∧
      Tok.default.type = TokType.invalid ∧
      (TokenStream.atPos ts p).next
        = TokenStream.atPos ts (if p < ts.length then p + 1 else p) ∧
      ((TokenStream.atPos ts p).next).position ts = (if p < ts.length then p + 1 else p) ∧
      ((TokenStream.atPos ts p).next).position ts ≤ ts.length := by
  have hpos : ∀ q, q ≤ ts.length → (TokenStream.atPos ts q).position ts = q := by
    intro q hq
    simp only [TokenStream.atPos, TokenStream.position, List.length_drop]
    omega
  by_cases h : p < ts.length
  · have hd : ts.drop p = ts[p] :: ts.drop (p + 1) := by simp
    have hn : (TokenStream.atPos ts p).next = TokenStream.atPos ts (p + 1) := by
      simp only [TokenStream.atPos, TokenStream.next, hd]
    refine ⟨hpos p hp, ?_, rfl, ?_, ?_, ?_⟩
    · simp only [TokenStream.atPos, TokenStream.get, hd, h, ↓reduceDIte]
    · simp only [h, ↓reduceIte, hn]
    · simp only [h, ↓reduceIte, hn]
      exact hpos (p + 1) h
    · rw [hn, hpos (p + 1) h]
      exact h
  · have hlen : p = ts.length := by omega
    have hd : ts.drop p = [] := by
      rw [hlen]
      exact List.drop_length ts
    have hn : (TokenStream.atPos ts p).next = TokenStream.atPos ts p := by
      simp only [TokenStream.atPos, TokenStream.next, hd]
    refine ⟨hpos p hp, ?_, rfl, ?_, ?_, ?_⟩
    · simp only [TokenStream.atPos, TokenStream.get, hd, h, ↓reduceDIte]
    · simp only [h, ↓reduceIte, hn]
    · simp only [h, ↓reduceIte, hn]
      exact hpos p hp
    · rw [hn, hpos p hp]
      exact hp

/-- C11 on the two tokens of `1 +`, at the last token and at the end. -/
theorem cursor_contract_witness :
    (TokenStream.atPos [Tok.make TokType.num ['1'], Tok.make TokType.op ['+']] 1).get
        = Tok.make TokType.op ['+'] ∧
      (TokenStream.atPos [Tok.make TokType.num ['1'], Tok.make TokType.op ['+']] 2).get
        = Tok.default ∧
      (TokenStream.atPos [Tok.make TokType.num ['1'], Tok.make TokType.op ['+']] 2).next
        = TokenStream.atPos [Tok.make TokType.num ['1'], Tok.make TokType.op ['+']] 2 :=
  ⟨(cursor_contract [Tok.make TokType.num ['1'], Tok.make TokType.op ['+']] 1
      (by decide)).2.1,
    (cursor_contract [Tok.make TokType.num ['1'], Tok.make TokType.op ['+']] 2
      (by decide)).2.1,
    (cursor_contract [Tok.make TokType.num ['1'], Tok.make TokType.op ['+']] 2
      (by decide)).2.2.2.1⟩

/-! ### The operator table -/

/-- C12: a two-character lexeme accepted by the operator recognizer has a
first character that is accepted on its own. This holds for the operator table
of `is_operator`, and also for `get_op_type`, which looks at the first
character only. -/
theorem two_char_operator_first_char (c d : Char) :
    (is_operator [c, d] = true → is_operator [c] = true) ∧
      (get_op_type [c, d] ≠ Op.invalid → get_op_type [c] ≠ Op.invalid) := by
  constructor
  · intro h
    rw [is_operator_pair] at h
    rw [is_operator_single]
    rcases h.1 with rfl | rfl <;> simp
  · intro h
    exact h

/-- C12 at the lexeme `<=`. -/
theorem two_char_operator_first_char_witness :
    is_operator ['<', '='] = true ∧ is_operator ['<'] = true :=
  ⟨by decide, (two_char_operator_first_char '<' '=').1 (by decide)⟩

/-! ### Storage cells -/

/-- C13: `put(v)` on a storage cell succeeds exactly when `v` holds an
integer; the cell then holds that integer, whatever it held before, and `eval`
returns it. When `v` is absent or a reference to a storage cell, `put` throws
`TypeErrorEx` and the cell is left as it was. -/
theorem lvalue_put (cell : LValue) (v : EvalValue) :
    ((cell.put v).2 = none ↔ ∃ n, v = EvalValue.long n) ∧
      (∀ n, v = EvalValue.long n →
        cell.put v = ({ value := n }, none) ∧ (cell.put v).1.eval = EvalValue.long n) ∧
      ((v = EvalValue.null ∨ ∃ ref, v = EvalValue.lvalue ref) →
        cell.put v = (cell, some Exn.TypeErrorEx)) := by
  cases v with
  | null => simp [LValue.put]
  | long n => simp [LValue.put, LValue.eval]
  | lvalue ref => simp [LValue.put]

/-- C13 on a cell holding 5: storing 7 overwrites it, storing the absent value
or a reference fails and keeps 5. -/
theorem lvalue_put_witness :
    (LValue.put { value := 5 } (EvalValue.long 7)).1.eval = EvalValue.long 7 ∧
      LValue.put { value := 5 } EvalValue.null = ({ value := 5 }, some Exn.TypeErrorEx) ∧
      LValue.put { value := 5 } (EvalValue.lvalue { value := 9 })
        = ({ value := 5 }, some Exn.TypeErrorEx) :=
  ⟨((lvalue_put { value := 5 } (EvalValue.long 7)).2.1 7 rfl).2,
    (lvalue_put { value := 5 } EvalValue.null).2.2 (Or.inl rfl),
    (lvalue_put { value := 5 } (EvalValue.lvalue { value := 9 })).2.2 (Or.inr ⟨_, rfl⟩)⟩

/-! ### Lists of expressions -/

/-- C14 as stated fails: an `ExprList` whose only child is the tree of
`1 / 0`, a child whose evaluation fails with `DivisionByZeroEx`, evaluates
without failure to the absent value. -/
theorem exprlist_ignores_failing_child :
    divByZeroTree.eval = .error Exn.DivisionByZeroEx ∧
      (ExprList.mk [divByZeroTree]).eval = .ok EvalValue.null ∧
      (ExprList.mk [divByZeroTree]).eval ≠ .error Exn.DivisionByZeroEx := by
  refine ⟨rfl, rfl, ?_⟩
  intro h
  cases h

/-- C14 (amended): evaluating an `ExprList` node yields the absent value
whatever its children are; no child is evaluated, so the evaluation of the
list never fails, also when a child would. -/
theorem exprlist_eval_absent (l : ExprList) :
    l.eval = .ok EvalValue.null ∧ ∀ e, l.eval ≠ .error e := by
  refine ⟨rfl, ?_⟩
  intro e h
  cases h

/-! ### Unknown tokens -/

theorem UnknownShape_snoc (cur : List Char) (c : Char) (h : UnknownShape cur)
    (hc : (isalnum c || decide (c = '_')) = true) : UnknownShape (cur ++ [c]) := by
  obtain ⟨c0, tail, rfl, h1, h2, h3, h4⟩ := h
  refine ⟨c0, tail ++ [c], rfl, h1, h2, h3, ?_⟩
  intro x hx
  rcases List.mem_append.1 hx with hx | hx
  · exact h4 x hx
  · rw [List.mem_singleton] at hx
    subst hx
    exact hc

theorem unknown_flush (tt : TokType) (cur : List Char) (result : List Tok)
    (hcur : tt = TokType.unknown → UnknownShape cur)
    (hres : ∀ t ∈ result, t.type = TokType.unknown → UnknownShape t.value) :
    ∀ t ∈ (if tt ≠ TokType.invalid then result ++ [Tok.make tt cur] else result),
      t.type = TokType.unknown → UnknownShape t.value := by
  intro t ht
  by_cases htt : tt = TokType.invalid
  · simp only [htt, ne_eq, not_true_eq_false, ↓reduceIte] at ht
    exact hres t ht
  · simp only [htt, ne_eq, not_false_eq_true, ↓reduceIte] at ht
    rcases List.mem_append.1 ht with h | h
    · exact hres t h
    · rw [List.mem_singleton] at h
      subst h
      exact hcur

theorem unknown_snoc_op (result : List Tok) (v : List Char)
    (hres : ∀ t ∈ result, t.type = TokType.unknown → UnknownShape t.value) :
    ∀ t ∈ result ++ [Tok.make TokType.op v],
      t.type = TokType.unknown → UnknownShape t.value := by
  intro t ht
  rcases List.mem_append.1 ht with h | h
  · exact hres t h
  · rw [List.mem_singleton] at h
    subst h
    intro h0
    simp [Tok.make] at h0

theorem lexRest_unknown :
    ∀ (rest cur : List Char) (tt : TokType) (result : List Tok),
      (tt = TokType.unknown → UnknownShape cur) →
      (∀ t ∈ result, t.type = TokType.unknown → UnknownShape t.value) →
      ∀ t ∈ (lexRest rest cur tt result).result,
        t.type = TokType.unknown → UnknownShape t.value := by
  intro rest cur tt result
  induction rest, cur, tt, result using lexRest.induct with
  | case1 cur tt result htt =>
    intro hcur hres
    rw [lexRest]
    have := unknown_flush tt cur result hcur hres
    simpa only [htt, ne_eq, not_false_eq_true, ↓reduceIte] using this
  | case2 cur tt result htt =>
    intro hcur hres
    rw [lexRest]
    simp only [htt, ↓reduceIte]
    exact hres
  | case3 c rest cur tt result h1 h2 h3 ih =>
    intro hcur hres
    rw [lexRest]
    simp only [h1, h2, h3, ↓reduceIte]
    simp only [dite_eq_ite] at ih
    exact ih (by simp) (unknown_snoc_op _ _ (unknown_flush tt cur result hcur hres))
  | case4 c rest cur tt result h1 h2 h3 ih =>
    intro hcur hres
    rw [lexRest]
    simp only [h1, h2, h3, ↓reduceIte, Bool.false_eq_true]
    simp only [dite_eq_ite] at ih
    exact ih (by simp) (unknown_snoc_op _ _ (unknown_flush tt cur result hcur hres))
  | case5 c rest cur tt result h1 h2 ih =>
    intro hcur hres
    rw [lexRest]
    simp only [h1, h2, ↓reduceIte, Bool.false_eq_true]
    simp only [dite_eq_ite] at ih
    exact ih (by simp) (unknown_flush tt cur result hcur hres)
  | case6 c rest cur result h1 h2 ih =>
    intro hcur hres
    rw [lexRest]
    simp only [h1, h2, ↓reduceIte, Bool.false_eq_true]
    simp only [dite_eq_ite] at ih
    refine ih ?_ hres
    intro h0
    split at h0 <;> simp at h0
  | case7 c rest cur result h1 h2 h3 h4 =>
    intro hcur hres
    rw [lexRest]
    simp only [h1, h2, h3, h4, ↓reduceIte, Bool.false_eq_true]
    exact hres
  | case8 c rest cur result h1 h2 h3 h4 ih =>
    intro hcur hres
    rw [lexRest]
    simp only [h1, h2, h3, h4, ↓reduceIte, Bool.false_eq_true]
    exact ih (by simp) hres
  | case9 c rest cur tt result h1 h2 h3 h4 ih =>
    intro hcur hres
    rw [lexRest]
    simp only [h1, h2, h3, h4, ↓reduceIte, Bool.false_eq_true]
    exact ih (fun h0 => UnknownShape_snoc cur c (hcur h0) h2) hres
  | case10 c rest cur tt result h1 h2 h3 =>
    intro hcur hres
    rw [lexRest]
    simp only [h1, h2, ↓reduceIte, Bool.false_eq_true]
    rw [if_pos h3]
    exact hres
  | case11 c rest cur tt result h1 h2 h3 ih =>
    intro hcur hres
    rw [lexRest]
    simp only [h1, h2, h3, ↓reduceIte, Bool.false_eq_true]
    refine ih (fun _ => ⟨c, [], rfl, ?_, ?_, ?_, by simp⟩) hres
    · simp only [Bool.or_eq_true, not_or, Bool.not_eq_true] at h1
      exact h1.1
    · simp only [Bool.or_eq_true, not_or, Bool.not_eq_true] at h1
      exact h1.2
    · simpa using h2

/-- C15 as stated fails: the line `$a` is tokenized, without failure, to one
token of kind unknown whose text `$a` has length 2. -/
theorem unknown_token_two_chars :
    lexer "$a".toList = ⟨[Tok.make TokType.unknown ['$', 'a']], none⟩ ∧
      (Tok.make TokType.unknown ['$', 'a']).type = TokType.unknown ∧
      (Tok.make TokType.unknown ['$', 'a']).value.length = 2 := by
  decide

/-- C15 (amended): every token of kind unknown that the lexer emits, on any
line, starts with one character that is neither whitespace, nor an operator,
nor alphanumeric, nor `_`, and goes on with the alphanumeric characters and
`_` that follow it directly, if any; its text has length at least 1. -/
theorem unknown_token_shape (in_str : List Char) :
    ∀ t ∈ (lexer in_str).result, t.type = TokType.unknown →
      UnknownShape t.value ∧ 1 ≤ t.value.length := by
  intro t ht hty
  rw [lexer_eq_lexRest] at ht
  have h := lexRest_unknown in_str [] TokType.invalid [] (by simp) (by simp) t ht hty
  refine ⟨h, ?_⟩
  obtain ⟨c, tail, hv, _⟩ := h
  rw [hv]
  simp

/-- C15 (amended) at the line `$a`. -/
theorem unknown_token_shape_witness :
    UnknownShape ['$', 'a'] ∧ 1 ≤ ['$', 'a'].length :=
  unknown_token_shape "$a".toList (Tok.make TokType.unknown ['$', 'a']) (by decide) rfl

/-! ### No sentinel among the tokens -/

theorem lexerInto_eq_lexRest (in_str : List Char) (result : List Tok) :
    lexerInto in_str result = lexRest in_str [] TokType.invalid result := by
  unfold lexerInto
  rw [lexLoop_eq_lexRest in_str in_str.length 0 0 TokType.invalid result []
    (Nat.zero_le _) (by omega) (by simp)]
  rfl

/-- C20: every token the lexer appends to `result`, also before it fails with
`InvalidTokenEx` and also when `result` already holds the tokens of earlier
lines, has kind `num`, `id`, `op` or `unknown`, never `invalid`, and a
non-empty text. Hence, at any cursor position over these tokens, the
end-of-input test of `main` (the current token has kind `invalid`) holds
exactly when no token is left. -/
theorem lexer_no_sentinel (in_str : List Char) (result : List Tok)
    (hres : ∀ t ∈ result, TokOk t) :
    (∀ t ∈ (lexerInto in_str result).result,
        (t.type = TokType.num ∨ t.type = TokType.id ∨ t.type = TokType.op ∨
            t.type = TokType.unknown) ∧
          t.type ≠ TokType.invalid ∧ t.value ≠ []) ∧
      (∀ used left, (lexerInto in_str result).result = used ++ left →
        ((Context.start left).deref.type = TokType.invalid ↔ left = [])) := by
  have hok : ∀ t ∈ (lexerInto in_str result).result, TokOk t := by
    rw [lexerInto_eq_lexRest]
    exact lexRest_tokens in_str [] TokType.invalid result (by simp) hres
  constructor
  · intro t ht
    obtain ⟨h1, h2, _⟩ := hok t ht
    refine ⟨?_, h1, h2⟩
    cases hty : t.type with
    | invalid => exact absurd hty h1
    | num => simp
    | id => simp
    | op => simp
    | unknown => simp
  · intro used left hu
    exact deref_type_invalid_iff _ used (Context.start left) (fun t ht => (hok t ht).1) hu

/-- C20 at the line `1 $x 2y`, on which the lexer fails after two tokens. -/
theorem lexer_no_sentinel_witness :
    (lexer "1 $x 2y".toList).exn = some (Exn.InvalidTokenEx ['2', 'y']) ∧
      (∀ t ∈ (lexerInto "1 $x 2y".toList []).result,
        (t.type = TokType.num ∨ t.type = TokType.id ∨ t.type = TokType.op ∨
            t.type = TokType.unknown) ∧
          t.type ≠ TokType.invalid ∧ t.value ≠ []) :=
  ⟨by decide, (lexer_no_sentinel "1 $x 2y".toList [] (by simp)).1⟩

/-! ### Chains associate to the left -/

theorem lexer_chain3 (da db dc : List Char) (o : Char)
    (ho : o ∈ ['+', '-', '*', '/'])
    (hna : da ≠ []) (hda : ∀ d ∈ da, isdigit d = true)
    (hnb : db ≠ []) (hdb : ∀ d ∈ db, isdigit d = true)
    (hnc : dc ≠ []) (hdc : ∀ d ∈ dc, isdigit d = true) :
    lexer (da ++ [' ', o, ' '] ++ db ++ [' ', o, ' '] ++ dc)
      = ⟨[Tok.make TokType.num da, Tok.make TokType.op [o], Tok.make TokType.num db,
          Tok.make TokType.op [o], Tok.make TokType.num dc], none⟩ := by
  have ho2 : o ∈ ['+', '-', '*', '/', '(', ')'] := by
    simp only [List.mem_cons, List.mem_singleton, List.not_mem_nil, or_false] at ho ⊢
    tauto
  rw [lexer_eq_lexRest]
  simp only [List.append_assoc, List.cons_append, List.nil_append]
  rw [lexRest_digits_open da hna hda,
    lexRest_space ' ' _ _ _ _ (by decide),
    lexRest_op_single o _ _ _ _ ho2,
    lexRest_space ' ' _ _ _ _ (by decide),
    lexRest_digits_open db hnb hdb,
    lexRest_space ' ' _ _ _ _ (by decide),
    lexRest_op_single o _ _ _ _ ho2,
    lexRest_space ' ' _ _ _ _ (by decide),
    lexRest_digits_end dc hnc hdc]
  simp

theorem parse_sub_sub (da db dc : List Char) (a b c : Int)
    (ha : stol da = .ok a) (hb : stol db = .ok b) (hc : stol dc = .ok c) :
    parse [Tok.make TokType.num da, Tok.make TokType.op ['-'], Tok.make TokType.num db,
        Tok.make TokType.op ['-'], Tok.make TokType.num dc]
      = .ok (Construct.Expr06 [(Op.invalid, Construct.Expr04
          [(Op.invalid, Construct.Expr03 [(Op.invalid, Construct.Expr01 (Construct.LiteralInt a))]),
           (Op.minus, Construct.Expr03 [(Op.invalid, Construct.Expr01 (Construct.LiteralInt b))]),
           (Op.minus, Construct.Expr03
              [(Op.invalid, Construct.Expr01 (Construct.LiteralInt c))])])],
          Context.start []) := by
  simp [parse, pExprTop, pExpr06, pExpr04, pExpr03, pExprGeneric, pExprGenericLoop, pExpr01,
    AcceptOneOf, pAcceptOp, pAcceptLiteralInt, Context.start, Context.deref, Context.get_str,
    Context.postInc, TokenStream.get, TokenStream.next, Tok.make, get_op_type, ha, hb, hc,
    Tok.default]

theorem parse_div_div (da db dc : List Char) (a b c : Int)
    (ha : stol da = .ok a) (hb : stol db = .ok b) (hc : stol dc = .ok c) :
    parse [Tok.make TokType.num da, Tok.make TokType.op ['/'], Tok.make TokType.num db,
        Tok.make TokType.op ['/'], Tok.make TokType.num dc]
      = .ok (Construct.Expr06 [(Op.invalid, Construct.Expr04 [(Op.invalid, Construct.Expr03
          [(Op.invalid, Construct.Expr01 (Construct.LiteralInt a)),
           (Op.div, Construct.Expr01 (Construct.LiteralInt b)),
           (Op.div, Construct.Expr01 (Construct.LiteralInt c))])])],
          Context.start []) := by
  simp [parse, pExprTop, pExpr06, pExpr04, pExpr03, pExprGeneric, pExprGenericLoop, pExpr01,
    AcceptOneOf, pAcceptOp, pAcceptLiteralInt, Context.start, Context.deref, Context.get_str,
    Context.postInc, TokenStream.get, TokenStream.next, Tok.make, get_op_type, ha, hb, hc,
    Tok.default]

theorem eval_sub_sub (a b c : Int) :
    (Construct.Expr06 [(Op.invalid, Construct.Expr04
        [(Op.invalid, Construct.Expr03 [(Op.invalid, Construct.Expr01 (Construct.LiteralInt a))]),
         (Op.minus, Construct.Expr03 [(Op.invalid, Construct.Expr01 (Construct.LiteralInt b))]),
         (Op.minus, Construct.Expr03
            [(Op.invalid, Construct.Expr01 (Construct.LiteralInt c))])])]).eval
      = .ok (EvalValue.long (wrapLong (wrapLong (a - b) - c))) := by
  simp [Construct.eval, evalChain, evalRest, applyOp, EvalValue.toLong]

theorem eval_div_div (a b c : Int) (hb : b ≠ 0) (hc : c ≠ 0) :
    (Construct.Expr06 [(Op.invalid, Construct.Expr04 [(Op.invalid, Construct.Expr03
        [(Op.invalid, Construct.Expr01 (Construct.LiteralInt a)),
         (Op.div, Construct.Expr01 (Construct.LiteralInt b)),
         (Op.div, Construct.Expr01 (Construct.LiteralInt c))])])]).eval
      = .ok (EvalValue.long (wrapLong (Int.tdiv (wrapLong (Int.tdiv a b)) c))) := by
  simp [Construct.eval, evalChain, evalRest, applyOp, EvalValue.toLong, hb, hc]

/-- C16 (amended): for digit strings `a`, `b`, `c` in machine range, the lines
`a - b - c` and (for `b`, `c` other than zero) `a / b / c` are each parsed into
one chain node holding the three operands in source order, and evaluate from
the left: to `(a - b) - c` in 64-bit `long` arithmetic, which is the integer
`a - b - c` whenever that is at least `LONG_MIN`, and to `(a / b) / c` with
truncating integer division. -/
theorem chains_left_associative (da db dc : List Char)
    (hna : da ≠ []) (hda : ∀ d ∈ da, isdigit d = true)
    (hra : (digitsValue da : Int) ≤ LONG_MAX)
    (hnb : db ≠ []) (hdb : ∀ d ∈ db, isdigit d = true)
    (hrb : (digitsValue db : Int) ≤ LONG_MAX)
    (hnc : dc ≠ []) (hdc : ∀ d ∈ dc, isdigit d = true)
    (hrc : (digitsValue dc : Int) ≤ LONG_MAX) :
    (parse (lexer (da ++ [' ', '-', ' '] ++ db ++ [' ', '-', ' '] ++ dc)).result
        = .ok (Construct.Expr06 [(Op.invalid, Construct.Expr04
            [(Op.invalid, Construct.Expr03
                [(Op.invalid, Construct.Expr01 (Construct.LiteralInt (digitsValue da)))]),
             (Op.minus, Construct.Expr03
                [(Op.invalid, Construct.Expr01 (Construct.LiteralInt (digitsValue db)))]),
             (Op.minus, Construct.Expr03
                [(Op.invalid, Construct.Expr01 (Construct.LiteralInt (digitsValue dc)))])])],
            Context.start []) ∧
      runLine (da ++ [' ', '-', ' '] ++ db ++ [' ', '-', ' '] ++ dc)
        = .ok (EvalValue.long (wrapLong (wrapLong (digitsValue da - digitsValue db)
            - digitsValue dc))) ∧
      (LONG_MIN ≤ (digitsValue da - digitsValue db - digitsValue dc : Int) →
        runLine (da ++ [' ', '-', ' '] ++ db ++ [' ', '-', ' '] ++ dc)
          = .ok (EvalValue.long (digitsValue da - digitsValue db - digitsValue dc)))) ∧
      (digitsValue db ≠ 0 → digitsValue dc ≠ 0 →
        parse (lexer (da ++ [' ', '/', ' '] ++ db ++ [' ', '/', ' '] ++ dc)).result
          = .ok (Construct.Expr06 [(Op.invalid, Construct.Expr04 [(Op.invalid,
              Construct.Expr03
                [(Op.invalid, Construct.Expr01 (Construct.LiteralInt (digitsValue da))),
                 (Op.div, Construct.Expr01 (Construct.LiteralInt (digitsValue db))),
                 (Op.div, Construct.Expr01 (Construct.LiteralInt (digitsValue dc)))])])],
              Context.start []) ∧
        runLine (da ++ [' ', '/', ' '] ++ db ++ [' ', '/', ' '] ++ dc)
          = .ok (EvalValue.long
              (Int.tdiv (Int.tdiv (digitsValue da) (digitsValue db)) (digitsValue dc))) ∧
        runLine (da ++ [' ', '/', ' '] ++ db ++ [' ', '/', ' '] ++ dc)
          = .ok (EvalValue.long ((digitsValue da / digitsValue db / digitsValue dc : Nat)))) := by
  have hsa := stol_digits da hna hda hra
  have hsb := stol_digits db hnb hdb hrb
  have hsc := stol_digits dc hnc hdc hrc
  have h0a := digitsValue_nonneg da
  have h0b := digitsValue_nonneg db
  have h0c := digitsValue_nonneg dc
  have hmax : LONG_MAX = 9223372036854775807 := rfl
  have hmin : LONG_MIN = -9223372036854775808 := rfl
  constructor
  · have hlex := lexer_chain3 da db dc '-' (by decide) hna hda hnb hdb hnc hdc
    have hparse := parse_sub_sub da db dc _ _ _ hsa hsb hsc
    have hrun := runLine_of_parse _ _ _ hlex hparse
    rw [eval_sub_sub] at hrun
    refine ⟨by rw [hlex]; exact hparse, hrun, ?_⟩
    intro hfit
    rw [hrun, wrapLong_id (digitsValue da - digitsValue db) (by omega) (by omega),
      wrapLong_id _ hfit (by omega)]
  · intro hb0 hc0
    have hb0i : (digitsValue db : Int) ≠ 0 := by exact_mod_cast hb0
    have hc0i : (digitsValue dc : Int) ≠ 0 := by exact_mod_cast hc0
    have hlex := lexer_chain3 da db dc '/' (by decide) hna hda hnb hdb hnc hdc
    have hparse := parse_div_div da db dc _ _ _ hsa hsb hsc
    have hrun := runLine_of_parse _ _ _ hlex hparse
    rw [eval_div_div _ _ _ hb0i hc0i] at hrun
    have e1 : Int.tdiv (digitsValue da) (digitsValue db)
        = ((digitsValue da / digitsValue db : Nat) : Int) := (Int.ofNat_tdiv _ _).symm
    have hle1 : digitsValue da / digitsValue db ≤ digitsValue da := Nat.div_le_self _ _
    have w1 : wrapLong (Int.tdiv (digitsValue da) (digitsValue db))
        = Int.tdiv (digitsValue da) (digitsValue db) := by
      rw [e1]
      exact wrapLong_id _ (le_trans (by decide) (Int.ofNat_nonneg _))
        (le_trans (by exact_mod_cast hle1) hra)
    have e2 : Int.tdiv (Int.tdiv (digitsValue da) (digitsValue db)) (digitsValue dc)
        = ((digitsValue da / digitsValue db / digitsValue dc : Nat) : Int) := by
      rw [e1]
      exact (Int.ofNat_tdiv _ _).symm
    have hle2 : digitsValue da / digitsValue db / digitsValue dc ≤ digitsValue da :=
      le_trans (Nat.div_le_self _ _) hle1
    have w2 : wrapLong (Int.tdiv (Int.tdiv (digitsValue da) (digitsValue db)) (digitsValue dc))
        = Int.tdiv (Int.tdiv (digitsValue da) (digitsValue db)) (digitsValue dc) := by
      rw [e2]
      exact wrapLong_id _ (le_trans (by decide) (Int.ofNat_nonneg _))
        (le_trans (by exact_mod_cast hle2) hra)
    rw [w1, w2] at hrun
    refine ⟨by rw [hlex]; exact hparse, hrun, ?_⟩
    rw [hrun, e2]

/-- C16 (amended) at `8 - 3 - 2`, which yields 3, and at `100 / 5 / 2`, which
yields 10. -/
theorem chains_left_associative_witness :
    runLine "8 - 3 - 2".toList = .ok (EvalValue.long 3) ∧
      runLine "100 / 5 / 2".toList = .ok (EvalValue.long 10) :=
  ⟨(chains_left_associative ['8'] ['3'] ['2'] (by decide) (by decide) (by decide)
      (by decide) (by decide) (by decide) (by decide) (by decide) (by decide)).1.2.2
      (by decide),
    ((chains_left_associative ['1', '0', '0'] ['5'] ['2'] (by decide) (by decide) (by decide)
      (by decide) (by decide) (by decide) (by decide) (by decide) (by decide)).2
      (by decide) (by decide)).2.2⟩

/-- C16 as stated fails outside the machine range: the line
`0 - 9223372036854775807 - 9223372036854775807` evaluates to 2, not to the
integer `(0 - 9223372036854775807) - 9223372036854775807`; and on the line
`99999999999999999999 / 1 / 1` the parse step fails in `stol` with
`std::out_of_range`. -/
theorem chain_sub_overflow :
    runLine "0 - 9223372036854775807 - 9223372036854775807".toList
        = .ok (EvalValue.long 2) ∧
      runLine "0 - 9223372036854775807 - 9223372036854775807".toList
        ≠ .ok (EvalValue.long (0 - 9223372036854775807 - 9223372036854775807)) ∧
      runLine "99999999999999999999 / 1 / 1".toList = .error Exn.StdOutOfRange := by
  have h : runLine "0 - 9223372036854775807 - 9223372036854775807".toList
      = .ok (EvalValue.long 2) := rfl
  refine ⟨h, ?_, rfl⟩
  rw [h]
  intro h2
  injection h2 with h3
  injection h3 with h4
  exact absurd h4 (by decide)

/-! ### Shape and depth of parsed trees -/

theorem shapedElems_iff (elems : List (Op × Construct)) :
    shapedElems elems = true ↔ ∀ q ∈ elems, q.2.shaped = true := by
  induction elems with
  | nil => simp [shapedElems]
  | cons q rest ih =>
    obtain ⟨o, e⟩ := q
    simp [shapedElems, ih]

theorem depthElems_le (elems : List (Op × Construct)) (n : Nat) :
    depthElems elems ≤ n ↔ ∀ q ∈ elems, q.2.depth ≤ n := by
  induction elems with
  | nil => simp [depthElems]
  | cons q rest ih =>
    obtain ⟨o, e⟩ := q
    simp [depthElems, ih]

theorem AcceptOneOf_accepted (c : Context) (ops : List Op) (hops : Op.invalid ∉ ops)
    (h : (AcceptOneOf c ops).1 ≠ Op.invalid) :
    (AcceptOneOf c ops).1 ∈ ops ∧
      ∃ t, Accepted t ∧ c.ts.rest = t :: (AcceptOneOf c ops).2.ts.rest := by
  rcases AcceptOneOf_spec c ops hops with ⟨h1, _⟩ | ⟨h1, t, ht, hr⟩
  · exact absurd h1 h
  · exact ⟨h1, t, Or.inr (by rw [ht]; exact h), hr⟩

theorem inv_pExpr01 (top : Context → ParseResult) (htop : Inv 0 top) :
    Inv 3 (pExpr01 top) := by
  intro c r c1 h
  unfold pExpr01 at h
  cases hl : pAcceptLiteralInt c with
  | error x => simp [hl] at h
  | ok v =>
    obtain ⟨o, c2⟩ := v
    cases o with
    | some e =>
      simp only [hl, Except.ok.injEq, Prod.mk.injEq] at h
      obtain ⟨t, ht, hr⟩ := pAcceptLiteralInt_some c c2 e hl
      have he : e.shaped = true ∧ e.depth = 1 := by
        unfold pAcceptLiteralInt at hl
        split at hl
        · split at hl
          · simp only [Except.ok.injEq, Prod.mk.injEq, Option.some.injEq] at hl
            rw [← hl.1]
            exact ⟨by simp [Construct.shaped], by simp [Construct.depth]⟩
          · simp at hl
        · simp at hl
      refine ⟨[t], ?_, ?_, ?_, ?_⟩
      · rw [← h.2]
        simpa using hr
      · intro t1 ht1
        rw [List.mem_singleton] at ht1
        subst ht1
        exact Or.inl ht
      · rw [← h.1]
        simp [Construct.shaped, he.1]
      · rw [← h.1]
        simp [Construct.depth, he.2]
    | none =>
      have hc2 := pAcceptLiteralInt_none c c2 hl
      subst hc2
      simp only [hl] at h
      by_cases hp : (pAcceptOp c2 Op.parenL).1 = true
      · simp only [hp, ↓reduceIte] at h
        obtain ⟨t, htop1, hr⟩ := pAcceptOp_true c2 Op.parenL (by decide) hp
        cases ht : top (pAcceptOp c2 Op.parenL).2 with
        | error x => simp [ht] at h
        | ok v =>
          obtain ⟨e, c3⟩ := v
          simp only [ht] at h
          cases he : pExpectOp c3 Op.parenR with
          | error x => simp [he] at h
          | ok c4 =>
            simp only [he, Except.ok.injEq, Prod.mk.injEq] at h
            obtain ⟨used, hu, hacc, hsh, hd⟩ := htop _ _ _ ht
            obtain ⟨t2, ht2, hr2⟩ := pExpectOp_ok c3 c4 Op.parenR (by decide) he
            refine ⟨(t :: used) ++ [t2], ?_, ?_, ?_, ?_⟩
            · rw [← h.2, hr, hu, hr2]
              simp
            · intro t1 ht1
              simp only [List.cons_append, List.mem_cons, List.mem_append,
                List.mem_singleton, List.not_mem_nil, or_false] at ht1
              rcases ht1 with rfl | ht1 | rfl
              · exact Or.inr (by rw [htop1]; decide)
              · exact hacc t1 ht1
              · exact Or.inr (by rw [ht2]; decide)
            · rw [← h.1]
              simpa [Construct.shaped] using hsh
            · rw [← h.1]
              simp only [Construct.depth, List.cons_append, List.length_cons,
                List.length_append, List.length_nil]
              omega
      · simp [hp] at h

theorem inv_loop (lower : Context → ParseResult) (ops : List Op) (k : Nat)
    (hops : Op.invalid ∉ ops) (hlow : Inv (k + 1) lower) :
    ∀ (fuel : Nat) (c : Context) (elems elems1 : List (Op × Construct)) (c1 : Context),
      pExprGenericLoop lower ops fuel c elems = .ok (elems1, c1) →
      ∃ more used, elems1 = elems ++ more ∧ c.ts.rest = used ++ c1.ts.rest ∧
        (∀ t ∈ used, Accepted t) ∧
        ∀ q ∈ more, q.1 ∈ ops ∧ q.2.shaped = true ∧ q.2.depth + (k + 1) ≤ 4 * used.length + 1 := by
  intro fuel
  induction fuel with
  | zero =>
    intro c elems elems1 c1 h
    unfold pExprGenericLoop at h
    by_cases ha : (AcceptOneOf c ops).1 ≠ Op.invalid
    · simp [ha] at h
    · simp only [if_neg ha, Except.ok.injEq, Prod.mk.injEq] at h
      have ha2 : (AcceptOneOf c ops).1 = Op.invalid := by simpa using ha
      rcases AcceptOneOf_spec c ops hops with ⟨_, h2⟩ | ⟨h1, _⟩
      · refine ⟨[], [], by simp [h.1], ?_, by simp, by simp⟩
        rw [← h.2, h2]
        rfl
      · exact absurd (ha2 ▸ h1) hops
  | succ fuel ih =>
    intro c elems elems1 c1 h
    unfold pExprGenericLoop at h
    by_cases ha : (AcceptOneOf c ops).1 ≠ Op.invalid
    · simp only [if_pos ha] at h
      obtain ⟨hmem, t, hacc, hr⟩ := AcceptOneOf_accepted c ops hops ha
      cases hl : lower (AcceptOneOf c ops).2 with
      | error x => simp [hl] at h
      | ok v =>
        obtain ⟨e, c2⟩ := v
        simp only [hl] at h
        obtain ⟨used, hu, hacc2, hsh, hd⟩ := hlow _ _ _ hl
        obtain ⟨more, used2, hm, hu2, hacc3, hq⟩ := ih _ _ _ _ h
        refine ⟨((AcceptOneOf c ops).1, e) :: more, (t :: used) ++ used2, ?_, ?_, ?_, ?_⟩
        · rw [hm]
          simp
        · rw [hr, hu, hu2]
          simp
        · intro t1 ht1
          simp only [List.cons_append, List.mem_cons, List.mem_append] at ht1
          rcases ht1 with rfl | ht1 | ht1
          · exact hacc
          · exact hacc2 t1 ht1
          · exact hacc3 t1 ht1
        · intro q hq1
          rcases List.mem_cons.1 hq1 with rfl | hq1
          · refine ⟨hmem, hsh, ?_⟩
            simp only [List.cons_append, List.length_cons, List.length_append]
            omega
          · obtain ⟨q1, q2, q3⟩ := hq q hq1
            refine ⟨q1, q2, ?_⟩
            simp only [List.cons_append, List.length_cons, List.length_append]
            omega
    · simp only [if_neg ha, Except.ok.injEq, Prod.mk.injEq] at h
      have ha2 : (AcceptOneOf c ops).1 = Op.invalid := by simpa using ha
      rcases AcceptOneOf_spec c ops hops with ⟨_, h2⟩ | ⟨h1, _⟩
      · refine ⟨[], [], by simp [h.1], ?_, by simp, by simp⟩
        rw [← h.2, h2]
        rfl
      · exact absurd (ha2 ▸ h1) hops

theorem progress_loop_elems (lower : Context → ParseResult) (ops : List Op) :
    ∀ (fuel : Nat) (c : Context) (elems elems1 : List (Op × Construct)) (c1 : Context),
      pExprGenericLoop lower ops fuel c elems = .ok (elems1, c1) →
      ∃ more, elems1 = elems ++ more := by
  intro fuel
  induction fuel with
  | zero =>
    intro c elems elems1 c1 h
    unfold pExprGenericLoop at h
    by_cases ha : (AcceptOneOf c ops).1 ≠ Op.invalid
    · simp [ha] at h
    · simp only [if_neg ha, Except.ok.injEq, Prod.mk.injEq] at h
      exact ⟨[], by simp [h.1]⟩
  | succ fuel ih =>
    intro c elems elems1 c1 h
    unfold pExprGenericLoop at h
    by_cases ha : (AcceptOneOf c ops).1 ≠ Op.invalid
    · simp only [if_pos ha] at h
      cases hl : lower (AcceptOneOf c ops).2 with
      | error x => simp [hl] at h
      | ok v =>
        obtain ⟨e, c2⟩ := v
        simp only [hl] at h
        obtain ⟨more, hm⟩ := ih _ _ _ _ h
        exact ⟨((AcceptOneOf c ops).1, e) :: more, by rw [hm]; simp⟩
    · simp only [if_neg ha, Except.ok.injEq, Prod.mk.injEq] at h
      exact ⟨[], by simp [h.1]⟩

theorem depthElems_add_le (elems : List (Op × Construct)) (j N : Nat) (hj : j ≤ N)
    (h : ∀ q ∈ elems, q.2.depth + j ≤ N) : depthElems elems + j ≤ N := by
  have h2 : depthElems elems ≤ N - j := by
    rw [depthElems_le]
    intro q hq
    have := h q hq
    omega
  omega

theorem inv_pExprGeneric (mk : List (Op × Construct) → Construct) (allow : Bool)
    (lower : Context → ParseResult) (ops first : List Op) (fuel k : Nat)
    (hops : Op.invalid ∉ ops) (hlow : Inv (k + 1) lower)
    (hshape : ∀ elems, (mk elems).shaped
      = (chainOps first ops (elems.map Prod.fst) && shapedElems elems))
    (hdepth : ∀ elems, (mk elems).depth = 1 + depthElems elems)
    (hF0 : Op.invalid ∈ first) (hF : allow = true → ∀ o ∈ ops, o ∈ first) :
    Inv k (pExprGeneric mk allow lower ops fuel) := by
  intro c r c1 h
  unfold pExprGeneric at h
  simp only at h
  have hfirst : ∃ pre, c.ts.rest
      = pre ++ (if allow = true then AcceptOneOf c ops else (Op.invalid, c)).2.ts.rest ∧
      (∀ t ∈ pre, Accepted t) ∧
      (if allow = true then AcceptOneOf c ops else (Op.invalid, c)).1 ∈ first := by
    cases allow with
    | false => exact ⟨[], rfl, by simp, hF0⟩
    | true =>
      rcases AcceptOneOf_spec c ops hops with ⟨h1, h2⟩ | ⟨h1, t, ht, hr⟩
      · refine ⟨[], by simp [h2], by simp, ?_⟩
        simp only [↓reduceIte, h1]
        exact hF0
      · refine ⟨[t], by simpa using hr, ?_, hF rfl _ h1⟩
        intro t1 ht1
        rw [List.mem_singleton] at ht1
        subst ht1
        refine Or.inr ?_
        rw [ht]
        exact fun h0 => hops (h0 ▸ h1)
  obtain ⟨pre, hpre, hpacc, hpF⟩ := hfirst
  cases hl : lower (if allow = true then AcceptOneOf c ops else (Op.invalid, c)).2 with
  | error x => simp [hl] at h
  | ok v =>
    obtain ⟨e, c2⟩ := v
    simp only [hl] at h
    obtain ⟨used, hu, hacc, hsh, hd⟩ := hlow _ _ _ hl
    cases hlp : pExprGenericLoop lower ops fuel c2
        [((if allow = true then AcceptOneOf c ops else (Op.invalid, c)).1, e)] with
    | error x => simp [hlp] at h
    | ok w =>
      obtain ⟨elems, c3⟩ := w
      simp only [hlp, Except.ok.injEq, Prod.mk.injEq] at h
      obtain ⟨more, used2, hm, hu2, hacc2, hq⟩ := inv_loop lower ops k hops hlow _ _ _ _ _ hlp
      refine ⟨(pre ++ used) ++ used2, ?_, ?_, ?_, ?_⟩
      · rw [hpre, hu, hu2, ← h.2]
        simp
      · intro t ht
        simp only [List.mem_append] at ht
        rcases ht with (ht | ht) | ht
        · exact hpacc t ht
        · exact hacc t ht
        · exact hacc2 t ht
      · rw [← h.1, hshape, hm]
        simp only [List.singleton_append, List.map_cons, chainOps, Bool.and_eq_true,
          decide_eq_true_eq, List.all_eq_true, List.mem_map, forall_exists_index, and_imp,
          forall_apply_eq_imp_iff₂, shapedElems]
        refine ⟨⟨hpF, fun q hq1 => (hq q hq1).1⟩, hsh, ?_⟩
        rw [shapedElems_iff]
        exact fun q hq1 => (hq q hq1).2.1
      · rw [← h.1, hdepth, hm]
        have hall : ∀ q ∈ [((if allow = true then AcceptOneOf c ops else (Op.invalid, c)).1, e)]
            ++ more, q.2.depth + (k + 1) ≤ 4 * ((pre ++ used) ++ used2).length + 1 := by
          intro q hq1
          simp only [List.singleton_append, List.mem_cons] at hq1
          simp only [List.length_append]
          rcases hq1 with rfl | hq1
          · simp only
            omega
          · have := (hq q hq1).2.2
            omega
        have hk : k + 1 ≤ 4 * ((pre ++ used) ++ used2).length + 1 := by
          simp only [List.length_append]
          omega
        have := depthElems_add_le _ (k + 1) _ hk hall
        omega

theorem inv_pExprTop : ∀ fuel : Nat, Inv 0 (pExprTop fuel) := by
  intro fuel
  induction fuel with
  | zero =>
    intro c r c1 h
    simp [pExprTop] at h
  | succ fuel ih =>
    have i01 := inv_pExpr01 (pExprTop fuel) ih
    have i03 : Inv 2 (pExpr03 (pExprTop fuel) fuel) :=
      inv_pExprGeneric Construct.Expr03 false _ _ [Op.invalid] fuel 2 (by decide) i01
        (fun _ => by simp [Construct.shaped]) (fun _ => by simp [Construct.depth])
        (by decide) (by simp)
    have i04 : Inv 1 (pExpr04 (pExprTop fuel) fuel) :=
      inv_pExprGeneric Construct.Expr04 true _ _ [Op.invalid, Op.plus, Op.minus] fuel 1
        (by decide) i03
        (fun _ => by simp [Construct.shaped]) (fun _ => by simp [Construct.depth])
        (by decide) (by intro _; decide)
    exact inv_pExprGeneric Construct.Expr06 false _ _ [Op.invalid] fuel 0 (by decide) i04
      (fun _ => by simp [Construct.shaped]) (fun _ => by simp [Construct.depth])
      (by decide) (by simp)

/-- What `parse` returns: a suffix of the tokens is left, the tokens consumed
were all accepted as numbers or operators, the tree is well shaped and its
depth is at most four times the number of tokens consumed, plus one. -/
theorem parse_inv (tokens : List Tok) (root : Construct) (ctx : Context)
    (h : parse tokens = .ok (root, ctx)) :
    ∃ used, tokens = used ++ ctx.ts.rest ∧ (∀ t ∈ used, Accepted t) ∧
      root.shaped = true ∧ root.depth ≤ 4 * used.length + 1 := by
  obtain ⟨used, h1, h2, h3, h4⟩ := inv_pExprTop _ _ _ _ h
  exact ⟨used, h1, h2, h3, by omega⟩

theorem AcceptOneOf_sign (c : Context) :
    (AcceptOneOf c [Op.plus, Op.minus]).1 = leadingSign c.deref := by
  unfold leadingSign
  simp only [AcceptOneOf, pAcceptOp]
  by_cases h1 : c.deref.op = Op.plus
  · simp [h1]
  · by_cases h2 : c.deref.op = Op.minus
    · simp [h1, h2]
    · simp [h1, h2]

/-- The node built by `pExpr04` is an `Expr04` chain whose first pair carries
the sign under the cursor, if there is one, and `Op.invalid` otherwise. -/
theorem pExpr04_first_pair (top : Context → ParseResult) (fuel : Nat) (c c1 : Context)
    (r : Construct) (h : pExpr04 top fuel c = .ok (r, c1)) :
    ∃ e rest, r = Construct.Expr04 ((leadingSign c.deref, e) :: rest) := by
  unfold pExpr04 pExprGeneric at h
  simp only [↓reduceIte] at h
  cases hl : pExpr03 top fuel (AcceptOneOf c [Op.plus, Op.minus]).2 with
  | error x => simp [hl] at h
  | ok v =>
    obtain ⟨e, c2⟩ := v
    simp only [hl] at h
    cases hlp : pExprGenericLoop (pExpr03 top fuel) [Op.plus, Op.minus] fuel c2
        [((AcceptOneOf c [Op.plus, Op.minus]).1, e)] with
    | error x => simp [hlp] at h
    | ok w =>
      obtain ⟨elems, c3⟩ := w
      simp only [hlp, Except.ok.injEq, Prod.mk.injEq] at h
      obtain ⟨more, hm⟩ :=
        progress_loop_elems (pExpr03 top fuel) [Op.plus, Op.minus] fuel c2 _ _ _ hlp
      refine ⟨e, more, ?_⟩
      rw [← h.1, hm, AcceptOneOf_sign]
      rfl

/-! ### The parser never runs out of fuel -/

theorem stol_error (s : List Char) (e : Exn) (h : stol s = .error e) :
    e = Exn.StdInvalidArgument ∨ e = Exn.StdOutOfRange := by
  unfold stol at h
  simp only at h
  split_ifs at h <;> cases h <;> simp

theorem pAcceptLiteralInt_error_kind (c : Context) (x : Exn)
    (h : pAcceptLiteralInt c = .error x) : x ≠ Exn.OutOfFuel := by
  unfold pAcceptLiteralInt at h
  split at h
  · cases hs : stol c.get_str with
    | ok n => simp [hs] at h
    | error y =>
      simp only [hs, Except.error.injEq] at h
      subst h
      rcases stol_error _ _ hs with rfl | rfl <;> decide
  · simp at h

theorem terminates_pExpr01 (top : Context → ParseResult) (k : Nat)
    (htop : Terminates top k) : Terminates (pExpr01 top) (k + 1) := by
  intro c hc x h
  unfold pExpr01 at h
  cases hl : pAcceptLiteralInt c with
  | error y =>
    simp only [hl, Except.error.injEq] at h
    subst h
    exact pAcceptLiteralInt_error_kind c y hl
  | ok v =>
    obtain ⟨o, c2⟩ := v
    cases o with
    | some e => simp [hl] at h
    | none =>
      have hc2 := pAcceptLiteralInt_none c c2 hl
      subst hc2
      simp only [hl] at h
      by_cases hp : (pAcceptOp c2 Op.parenL).1 = true
      · simp only [hp, ↓reduceIte] at h
        obtain ⟨t, _, hr⟩ := pAcceptOp_true c2 Op.parenL (by decide) hp
        cases ht : top (pAcceptOp c2 Op.parenL).2 with
        | error y =>
          simp only [ht, Except.error.injEq] at h
          subst h
          refine htop _ ?_ _ ht
          unfold Context.remaining at hc ⊢
          rw [hr] at hc
          simpa using hc
        | ok v =>
          obtain ⟨e, c3⟩ := v
          simp only [ht] at h
          cases he : pExpectOp c3 Op.parenR with
          | error y =>
            simp only [he, Except.error.injEq] at h
            subst h
            rw [pExpectOp_error _ _ _ he]
            decide
          | ok c4 => simp [he] at h
      · simp only [hp, Bool.false_eq_true, ↓reduceIte, Except.error.injEq] at h
        subst h
        decide

theorem terminates_loop (lower : Context → ParseResult) (ops : List Op) (K : Nat)
    (hops : Op.invalid ∉ ops) (hprog : Progress lower) (hlow : Terminates lower K) :
    ∀ (fuel : Nat) (c : Context) (elems : List (Op × Construct)) (x : Exn),
      c.remaining ≤ fuel → c.remaining ≤ K →
      pExprGenericLoop lower ops fuel c elems = .error x → x ≠ Exn.OutOfFuel := by
  intro fuel
  induction fuel with
  | zero =>
    intro c elems x hf _ h
    unfold pExprGenericLoop at h
    rcases AcceptOneOf_spec c ops hops with ⟨h1, _⟩ | ⟨_, t, _, hr⟩
    · simp [h1] at h
    · unfold Context.remaining at hf
      rw [hr] at hf
      simp at hf
  | succ fuel ih =>
    intro c elems x hf hK h
    unfold pExprGenericLoop at h
    rcases AcceptOneOf_spec c ops hops with ⟨h1, _⟩ | ⟨h1, t, _, hr⟩
    · simp [h1] at h
    · have hne : (AcceptOneOf c ops).1 ≠ Op.invalid := fun h0 => hops (h0 ▸ h1)
      simp only [if_pos hne] at h
      have hlen : (AcceptOneOf c ops).2.remaining + 1 = c.remaining := by
        unfold Context.remaining
        rw [hr]
        simp
      cases hl : lower (AcceptOneOf c ops).2 with
      | error y =>
        simp only [hl, Except.error.injEq] at h
        subst h
        exact hlow _ (by omega) _ hl
      | ok v =>
        obtain ⟨e, c2⟩ := v
        simp only [hl] at h
        obtain ⟨used, hu, hend⟩ := hprog _ _ _ hl
        have hlen2 : c2.remaining ≤ (AcceptOneOf c ops).2.remaining := by
          unfold Context.remaining
          rw [hu]
          simp
        exact ih c2 _ x (by omega) (by omega) h

theorem terminates_pExprGeneric (mk : List (Op × Construct) → Construct) (allow : Bool)
    (lower : Context → ParseResult) (ops : List Op) (k : Nat)
    (hops : Op.invalid ∉ ops) (hprog : Progress lower) (hlow : Terminates lower (k + 1)) :
    Terminates (pExprGeneric mk allow lower ops k) (k + 1) := by
  intro c hc x h
  unfold pExprGeneric at h
  simp only at h
  have hfirst : ∃ pre, c.ts.rest
      = pre ++ (if allow = true then AcceptOneOf c ops else (Op.invalid, c)).2.ts.rest := by
    cases allow with
    | false => exact ⟨[], rfl⟩
    | true =>
      rcases AcceptOneOf_spec c ops hops with ⟨_, h2⟩ | ⟨_, t, _, hr⟩
      · exact ⟨[], by simp [h2]⟩
      · exact ⟨[t], by simpa using hr⟩
  obtain ⟨pre, hpre⟩ := hfirst
  have hlen0 : (if allow = true then AcceptOneOf c ops else (Op.invalid, c)).2.remaining
      ≤ c.remaining := by
    unfold Context.remaining
    rw [hpre]
    simp
  cases hl : lower (if allow = true then AcceptOneOf c ops else (Op.invalid, c)).2 with
  | error y =>
    simp only [hl, Except.error.injEq] at h
    subst h
    exact hlow _ (by omega) _ hl
  | ok v =>
    obtain ⟨e, c2⟩ := v
    simp only [hl] at h
    obtain ⟨used, hu, hend⟩ := hprog _ _ _ hl
    have hne := EndsOperand_ne_nil used hend
    have hlen2 : c2.remaining
        < (if allow = true then AcceptOneOf c ops else (Op.invalid, c)).2.remaining := by
      unfold Context.remaining
      rw [hu]
      have : 0 < used.length := List.length_pos.2 hne
      simp
      omega
    cases hlp : pExprGenericLoop lower ops k c2
        [((if allow = true then AcceptOneOf c ops else (Op.invalid, c)).1, e)] with
    | error y =>
      simp only [hlp, Except.error.injEq] at h
      subst h
      exact terminates_loop lower ops (k + 1) hops hprog hlow k c2 _ _ (by omega) (by omega)
        hlp
    | ok w => simp [hlp] at h

theorem terminates_pExprTop : ∀ k : Nat, Terminates (pExprTop k) k := by
  intro k
  induction k with
  | zero =>
    intro c hc
    exact absurd hc (Nat.not_lt_zero _)
  | succ k ih =>
    have g01 := progress_pExpr01 (pExprTop k) (progress_pExprTop k)
    have g03 : Progress (pExpr03 (pExprTop k) k) :=
      progress_pExprGeneric _ _ _ _ _ (by decide) g01
    have g04 : Progress (pExpr04 (pExprTop k) k) :=
      progress_pExprGeneric _ _ _ _ _ (by decide) g03
    have a01 := terminates_pExpr01 (pExprTop k) k ih
    have a03 : Terminates (pExpr03 (pExprTop k) k) (k + 1) :=
      terminates_pExprGeneric _ _ _ _ _ (by decide) g01 a01
    have a04 : Terminates (pExpr04 (pExprTop k) k) (k + 1) :=
      terminates_pExprGeneric _ _ _ _ _ (by decide) g03 a03
    exact terminates_pExprGeneric Construct.Expr06 false _ _ _ (by decide) g04 a04

/-- The top rule never runs out of fuel on a whole token vector, whatever the
tokens are. -/
theorem parse_terminates (tokens : List Tok) : parse tokens ≠ .error Exn.OutOfFuel :=
  fun h => terminates_pExprTop _ _ (by simp [Context.remaining, Context.start]) _ h rfl

/-! ### The shape of parsed trees -/

theorem pExpr06_first_pair (top : Context → ParseResult) (fuel : Nat) (c c1 : Context)
    (r : Construct) (h : pExpr06 top fuel c = .ok (r, c1)) :
    ∃ e rest more, r = Construct.Expr06
      ((Op.invalid, Construct.Expr04 ((leadingSign c.deref, e) :: rest)) :: more) := by
  unfold pExpr06 pExprGeneric at h
  simp only [Bool.false_eq_true, ↓reduceIte] at h
  cases hl : pExpr04 top fuel c with
  | error x => simp [hl] at h
  | ok v =>
    obtain ⟨r4, c2⟩ := v
    simp only [hl] at h
    obtain ⟨e, rest, hr4⟩ := pExpr04_first_pair top fuel c c2 r4 hl
    cases hlp : pExprGenericLoop (pExpr04 top fuel) [Op.lt, Op.gt, Op.le, Op.ge] fuel c2
        [(Op.invalid, r4)] with
    | error x => simp [hlp] at h
    | ok w =>
      obtain ⟨elems, c3⟩ := w
      simp only [hlp, Except.ok.injEq, Prod.mk.injEq] at h
      obtain ⟨more, hm⟩ := progress_loop_elems _ _ fuel c2 _ _ _ hlp
      refine ⟨e, rest, more, ?_⟩
      rw [← h.1, hm, hr4]
      rfl

/-- C17: in every tree returned by the top parse rule, every chain node is
non-empty; an `Expr03` or `Expr06` chain has `Op.invalid` in its first pair and
an operator of its level (`*`, `/`, resp. `<`, `>`, `<=`, `>=`) in every later
pair; an `Expr04` chain has `Op.invalid`, `+` or `-` in its first pair and `+`
or `-` in every later pair (this is `Construct.shaped`; an `Expr01` node has
one child by its type). The operator of the first pair of an additive chain is
the sign under the cursor when the rule starts, and `Op.invalid` when that
token is no sign: for the additive chain at the root, and for every run of
`pExpr04`. -/
theorem parsed_tree_shape (tokens : List Tok) (root : Construct) (ctx : Context)
    (h : parse tokens = .ok (root, ctx)) :
    root.shaped = true ∧
      (∃ e rest more, root = Construct.Expr06
        ((Op.invalid, Construct.Expr04
          ((leadingSign (Context.start tokens).deref, e) :: rest)) :: more)) ∧
      (∀ top fuel c r c1, pExpr04 top fuel c = .ok (r, c1) →
        ∃ e rest, r = Construct.Expr04 ((leadingSign c.deref, e) :: rest)) := by
  obtain ⟨_, _, _, hs, _⟩ := parse_inv tokens root ctx h
  exact ⟨hs, pExpr06_first_pair _ _ _ _ _ h,
    fun top fuel c r c1 h4 => pExpr04_first_pair top fuel c c1 r h4⟩

/-- C17 at the line `-1 + (2 * 3)`. -/
theorem parsed_tree_shape_witness :
    ∃ root ctx, parse (lexer "-1 + (2 * 3)".toList).result = .ok (root, ctx) ∧
      root.shaped = true ∧
      ∃ e rest more, root = Construct.Expr06
        ((Op.invalid, Construct.Expr04 ((Op.minus, e) :: rest)) :: more) :=
  ⟨_, _, rfl, (parsed_tree_shape (lexer "-1 + (2 * 3)".toList).result _ _ rfl).1,
    (parsed_tree_shape (lexer "-1 + (2 * 3)".toList).result _ _ rfl).2.1⟩

/-! ### Identifiers and unknown tokens -/

/-- C18: a token sequence (tokens as the constructor builds them, of the kinds
the lexer emits, integer literals in machine range) that holds a token of kind
identifier or unknown is rejected: the top parse rule followed by the
end-of-input check fails with `SyntaxErrorEx`, so no tree is produced and
nothing is evaluated. -/
theorem identifier_or_unknown_rejected (tokens : List Tok)
    (hmake : ∀ t ∈ tokens, t = Tok.make t.type t.value)
    (hkind : ∀ t ∈ tokens, t.type ≠ TokType.invalid)
    (hlit : LitsOk tokens)
    (hbad : ∃ t ∈ tokens, t.type = TokType.id ∨ t.type = TokType.unknown) :
    parseAll tokens = .error Exn.SyntaxErrorEx ∧
      runTokens tokens = .error Exn.SyntaxErrorEx := by
  obtain ⟨bad, hmem, hty⟩ := hbad
  have hnot : ¬ Accepted bad := by
    have hm := hmake bad hmem
    intro hacc
    rcases hacc with h1 | h1
    · rcases hty with h2 | h2 <;> rw [h1] at h2 <;> cases h2
    · apply h1
      rw [hm]
      rcases hty with h2 | h2 <;> simp [Tok.make, h2]
  unfold parseAll runTokens
  cases hp : parse tokens with
  | error x =>
    have := parse_error _ hlit x hp
    subst this
    exact ⟨rfl, rfl⟩
  | ok v =>
    obtain ⟨root, ctx⟩ := v
    obtain ⟨used, hu, hacc, _, _⟩ := parse_inv _ _ _ hp
    have hne : ctx.deref.type ≠ TokType.invalid := by
      intro h
      have hnil := (deref_type_invalid_iff _ used ctx hkind hu).1 h
      rw [hnil, List.append_nil] at hu
      rw [hu] at hmem
      exact hnot (hacc bad hmem)
    simp [hne]

/-- C18 at the lines `x`, `1 + x` and `1 $`, as tokenized by the lexer. -/
theorem identifier_or_unknown_rejected_witness :
    runTokens (lexer "x".toList).result = .error Exn.SyntaxErrorEx ∧
      runTokens (lexer "1 + x".toList).result = .error Exn.SyntaxErrorEx ∧
      runTokens (lexer "1 $".toList).result = .error Exn.SyntaxErrorEx :=
  ⟨(identifier_or_unknown_rejected (lexer "x".toList).result (by decide) (by decide)
      (by
        intro t ht h
        exfalso
        revert t
        decide) (by decide)).2,
    (identifier_or_unknown_rejected (lexer "1 + x".toList).result (by decide) (by decide)
      (by
        intro t ht h
        have ht2 : t = Tok.make TokType.num ['1'] := by
          revert t
          decide
        subst ht2
        exact ⟨1, rfl⟩) (by decide)).2,
    (identifier_or_unknown_rejected (lexer "1 $".toList).result (by decide) (by decide)
      (by
        intro t ht h
        have ht2 : t = Tok.make TokType.num ['1'] := by
          revert t
          decide
        subst ht2
        exact ⟨1, rfl⟩) (by decide)).2⟩

/-! ### Termination and progress of the parser -/

/-- C19 as stated fails in two places: on the single token
`99999999999999999999` the top rule ends neither with a tree nor with
`SyntaxErrorEx` but with the `std::out_of_range` of `stol`; and on the single
token `1` it returns a tree of depth 5 (`Expr06`, `Expr04`, `Expr03`, `Expr01`,
`LiteralInt`) after consuming one token. -/
theorem parser_out_of_range_and_depth :
    parse [Tok.make TokType.num "99999999999999999999".toList]
        = .error Exn.StdOutOfRange ∧
      parse [Tok.make TokType.num ['1']]
        = .ok (Construct.Expr06 [(Op.invalid, Construct.Expr04 [(Op.invalid,
            Construct.Expr03 [(Op.invalid, Construct.Expr01 (Construct.LiteralInt 1))])])],
            Context.start []) ∧
      (Construct.Expr06 [(Op.invalid, Construct.Expr04 [(Op.invalid,
        Construct.Expr03 [(Op.invalid, Construct.Expr01 (Construct.LiteralInt 1))])])]).depth
        = 5 :=
  ⟨rfl, rfl, rfl⟩

/-- C19 (amended): on every token sequence the top parse rule terminates: it
never runs out of the fuel `tokens.length + 1`, and more fuel gives the same
result. With integer literals in machine range it returns a tree or fails with
`SyntaxErrorEx`. A run of the top rule that returns, from any cursor, leaves
the cursor strictly further on. Whenever a tree is returned, at least one token
has been consumed, the cursor stands after the tokens consumed, and the depth
of the tree is at most four times the number of tokens consumed, plus one. -/
theorem parser_terminates_progress (tokens : List Tok) :
    parse tokens ≠ .error Exn.OutOfFuel ∧
      (∀ m, tokens.length + 1 ≤ m → pExprTop m (Context.start tokens) = parse tokens) ∧
      (LitsOk tokens →
        (∃ root ctx, parse tokens = .ok (root, ctx)) ∨
          parse tokens = .error Exn.SyntaxErrorEx) ∧
      (∀ fuel c r c1, pExprTop fuel c = .ok (r, c1) → c1.remaining < c.remaining) ∧
      (∀ root ctx, parse tokens = .ok (root, ctx) →
        ∃ used, tokens = used ++ ctx.ts.rest ∧ 1 ≤ used.length ∧
          ctx.ts.position tokens = used.length ∧ root.depth ≤ 4 * used.length + 1) := by
  refine ⟨parse_terminates tokens, fun m hm => parse_fuel tokens m hm (parse_terminates tokens),
    ?_, ?_, ?_⟩
  · intro hlit
    cases hp : parse tokens with
    | error x => exact Or.inr (by rw [parse_error tokens hlit x hp])
    | ok v => exact Or.inl ⟨v.1, v.2, rfl⟩
  · intro fuel c r c1 h
    obtain ⟨used, hu, hend⟩ := progress_pExprTop fuel c r c1 h
    have hne := EndsOperand_ne_nil used hend
    have : 0 < used.length := List.length_pos.2 hne
    unfold Context.remaining
    rw [hu]
    simp
    omega
  · intro root ctx hp
    obtain ⟨used, hu, _, _, hd⟩ := parse_inv tokens root ctx hp
    obtain ⟨used2, hu2, hend⟩ := parse_progress tokens root ctx hp
    have hne := EndsOperand_ne_nil used2 hend
    have hlen : used2.length = used.length := by
      have h1 := congrArg List.length hu
      have h2 := congrArg List.length hu2
      simp only [List.length_append] at h1 h2
      omega
    have hpos : 0 < used2.length := List.length_pos.2 hne
    refine ⟨used, hu, by omega, ?_, hd⟩
    unfold TokenStream.position
    have h1 := congrArg List.length hu
    simp only [List.length_append] at h1
    omega

/-- C19 (amended) at the tokens of `(1)`. -/
theorem parser_terminates_progress_witness :
    (∃ root ctx, parse (lexer "(1)".toList).result = .ok (root, ctx)) ∨
      parse (lexer "(1)".toList).result = .error Exn.SyntaxErrorEx :=
  (parser_terminates_progress (lexer "(1)".toList).result).2.2.1 (by
    intro t ht h
    have ht2 : t = Tok.make TokType.num ['1'] := by
      revert t
      decide
    subst ht2
    exact ⟨1, rfl⟩)

end MyLang
